import Mathlib

set_option maxHeartbeats 1000000

/-!
Verification of the xiaohongshu browsing/campaign system.

Shallow embedding of the core logic of the repository:
* `parseNoteURL`, `instanceNumberSuffix`, `resolveTenFiles` (file
  `src/xiaohongshu/browse.go`),
* the ten-times campaign engine (`tenTimesManager`, `ensureState`,
  `appendCompleted`, `executeTenInteractionStep`, `processTenTimesIfNeeded`,
  `newTenTimesManager`),
* the browsing loop `StartBrowse`,
* the feed selection `selectFeedForClick`,
* the parallel orchestrator `RunParallelBrowse`
  (file `src/recommendation/parallel.go`),
* the shared browser `Manager` (package `browser`).

External effects (DOM queries, clicks, clock, file system) are passed in as
explicit environment values; randomness (`rand.Intn n`) is modelled as an
arbitrary environment-chosen number reduced mod `n`.
-/

/- ---------------------------------------------------------------------- -/
/- Go string helpers (embedding of the Go standard library functions the   -/
/- repository uses: strings.TrimSpace, strings.Split, strings.Index,       -/
/- strings.Contains).                                                      -/
/- ---------------------------------------------------------------------- -/

/-- ASCII whitespace as trimmed by Go's `strings.TrimSpace` (we restrict to
the ASCII fragment; the repository's identifiers and authors are compared
after this trim). -/
def isGoSpace (c : Char) : Bool :=
  c = ' ' || c = '\t' || c = '\n' || c = '\r' || c = '\x0b' || c = '\x0c'

/-- `strings.TrimSpace` on a character list. -/
def goTrimList (l : List Char) : List Char :=
  ((l.dropWhile isGoSpace).reverse.dropWhile isGoSpace).reverse

/-- `strings.TrimSpace` on a string. -/
def goTrim (s : String) : String :=
  String.mk (goTrimList s.data)

/-- Index of the first occurrence of `sep` as a contiguous substring of `s`
(`strings.Index` restricted to found/not-found as an `Option`). -/
def firstIdxOfSub (sep : List Char) : List Char → Option Nat
  | [] => if sep.isEmpty then some 0 else none
  | c :: rest =>
    if sep.isPrefixOf (c :: rest) then some 0
    else (firstIdxOfSub sep rest).map (· + 1)

/-- `strings.Contains`. -/
def goContains (s sub : List Char) : Bool :=
  (firstIdxOfSub sub s).isSome

/-- Worker for `goSplit`; `fuel` bounds the number of separator occurrences
and is always called with `fuel ≥ s.length + 1`, which is enough because a
non-empty separator consumes at least one character per split. -/
def goSplitAux (sep : List Char) : Nat → List Char → List (List Char)
  | 0, s => [s]
  | fuel + 1, s =>
    match firstIdxOfSub sep s with
    | none => [s]
    | some i => s.take i :: goSplitAux sep fuel (s.drop (i + sep.length))

/-- `strings.Split` for a non-empty separator (the repository only splits on
the non-empty separators `"/explore/"` and `"xsec_token="`). -/
def goSplit (sep s : List Char) : List (List Char) :=
  if sep = [] then [s] else goSplitAux sep (s.length + 1) s

/- ---------------------------------------------------------------------- -/
/- parseNoteURL (src/xiaohongshu/browse.go)                                -/
/- ---------------------------------------------------------------------- -/

/-- `parseNoteURL` from `src/xiaohongshu/browse.go`: extract the feed id
(first split part after `"/explore/"`, cut before `"?"` when `Index > 0`)
and the `xsec_token` value (after `"xsec_token="`, cut before `"&"` when
`Index > 0`). -/
def parseNoteURL (urlStr : List Char) : List Char × List Char :=
  let exploreSep := "/explore/".data
  let feedID :=
    if goContains urlStr exploreSep then
      let parts := goSplit exploreSep urlStr
      if parts.length > 1 then
        let pathPart := parts.getD 1 []
        match firstIdxOfSub ['?'] pathPart with
        | some i => if i > 0 then pathPart.take i else pathPart
        | none => pathPart
      else []
    else []
  let tokenSep := "xsec_token=".data
  let xsecToken :=
    if goContains urlStr tokenSep then
      let parts := goSplit tokenSep urlStr
      if parts.length > 1 then
        let tokenPart := parts.getD 1 []
        match firstIdxOfSub ['&'] tokenPart with
        | some i => if i > 0 then tokenPart.take i else tokenPart
        | none => tokenPart
      else []
    else []
  (feedID, xsecToken)

/- ---------------------------------------------------------------------- -/
/- instanceNumberSuffix / resolveTenFiles (src/xiaohongshu/browse.go)      -/
/- ---------------------------------------------------------------------- -/

def isDigitChar (c : Char) : Bool := '0' ≤ c && c ≤ '9'

/-- The match of the regular expression `(\d+)$`: the longest run of digits
at the end of the string. -/
def trailingDigits (l : List Char) : List Char :=
  (l.reverse.takeWhile isDigitChar).reverse

/-- Numeric value of a digit string. -/
def digitsVal (l : List Char) : Nat :=
  l.foldl (fun acc c => acc * 10 + (c.toNat - '0'.toNat)) 0

/-- `strconv.Atoi` succeeds on a non-empty all-digit string iff the value
fits in a 64-bit signed integer. -/
def goAtoiOk (l : List Char) : Bool :=
  decide (l ≠ []) && decide (digitsVal l ≤ 9223372036854775807)

/-- `instanceNumberSuffix`: trim the instance id, match `(\d+)$`, and keep
the digits only when `strconv.Atoi` accepts them. -/
def instanceNumberSuffix (instanceID : String) : String :=
  let t := goTrim instanceID
  if t = "" then ""
  else
    let m := trailingDigits t.data
    if m = [] then ""
    else if goAtoiOk m then String.mk m else ""

/-- The three file names produced by `resolveTenFiles` (the directory part is
chosen by `resolveExistingOrFirst` among working dir / executable dir / bare
name; the base name below is what every candidate path ends with). -/
def resolveTenFileNames (instanceID : String) : String × String × String :=
  let suffix := instanceNumberSuffix instanceID
  if suffix ≠ "" then
    ("ten_times" ++ suffix ++ ".txt",
     "ten_completed" ++ suffix ++ ".txt",
     "ten_state" ++ suffix ++ ".json")
  else
    ("ten_times.txt", "ten_completed.txt", "ten_state.json")

/-- `filepath.Join dir name` for a clean directory and a slash-free name. -/
def joinPath (dir name : String) : String := dir ++ "/" ++ name

/- ---------------------------------------------------------------------- -/
/- Data model shared by the session and campaign code                      -/
/- ---------------------------------------------------------------------- -/

/-- `User` (only the nickname fields used by `normalizeNickname`). -/
structure User where
  nickname : String
  nickName : String
  deriving DecidableEq, Repr

/-- The `NoteCard` fields the browse code reads. -/
structure NoteCard where
  user : User
  displayTitle : String
  cardType : String
  deriving DecidableEq, Repr

/-- A feed entry parsed from `window.__INITIAL_STATE__`. -/
structure Feed where
  id : String
  xsecToken : String
  noteCard : NoteCard
  deriving DecidableEq, Repr

/-- `normalizeNickname` from `src/xiaohongshu/browse.go`. -/
def normalizeNickname (u : User) : String :=
  if goTrim u.nickname ≠ "" then goTrim u.nickname
  else if goTrim u.nickName ≠ "" then goTrim u.nickName
  else ""

/-- `BrowseStats` (the derived `viewedSet` field is the set of
`viewedNotes` and is omitted). Durations are in abstract ticks. -/
structure BrowseStats where
  duration : Nat
  scrollCount : Nat
  clickCount : Nat
  likeCount : Nat
  favoriteCount : Nat
  commentCount : Nat
  viewedNotes : List String
  deriving DecidableEq, Repr

def emptyStats : BrowseStats := ⟨0, 0, 0, 0, 0, 0, []⟩

/-- Go errors relevant to the embedded control flow. -/
inductive GoErr
  | ctxCanceled
  | msg (s : String)
  deriving DecidableEq, Repr

/- ---------------------------------------------------------------------- -/
/- selectFeedForClick (src/xiaohongshu/browse.go)                          -/
/- ---------------------------------------------------------------------- -/

/-- `selectFeedForClick`: `fetchOk`/`feeds` stand for the result of
`getFeedsFromPage`; `viewed` is the session's viewed set; `pick` is the
environment's choice for `rand.Intn` (reduced mod the slice length). -/
def selectFeedForClick (fetchOk : Bool) (feeds : List Feed)
    (viewed : List String) (pick : Nat) : Option Feed :=
  if fetchOk = false ∨ feeds.length = 0 then none
  else
    let unviewed := feeds.filter (fun f => f.id ≠ "" && !(viewed.contains f.id))
    if unviewed.length > 0 then unviewed.get? (pick % unviewed.length)
    else feeds.get? (pick % feeds.length)

/- ---------------------------------------------------------------------- -/
/- StartBrowse main loop (src/xiaohongshu/browse.go)                       -/
/- ---------------------------------------------------------------------- -/

/-- One iteration of the `StartBrowse` loop as seen by the session: either
the context is observed cancelled at the top of the round, or the round runs
and fails (`browseRound` error: logged, paused, retried), or the round
succeeds and contributes counter deltas. The periodic refresh only
re-navigates and is invisible in the stats/error result. -/
inductive RoundEvent
  | cancelled
  | roundErr
  | roundOk (scrolls clicks likes favs comments : Nat) (viewed : List String)
  deriving DecidableEq, Repr

/-- Add one round's contribution to the stats (a failed round contributes
nothing, matching the `continue` after the logged warning). -/
def addRound (s : BrowseStats) : RoundEvent → BrowseStats
  | .roundOk sc ck lk fv cm vw =>
    { s with
      scrollCount := s.scrollCount + sc
      clickCount := s.clickCount + ck
      likeCount := s.likeCount + lk
      favoriteCount := s.favoriteCount + fv
      commentCount := s.commentCount + cm
      viewedNotes := s.viewedNotes ++ vw }
  | _ => s

/-- The `for time.Now().Before(browseUntil)` loop of `StartBrowse`.
Each iteration takes one clock tick; `fuel = deadline - now` counts the
remaining ticks, so the loop guard `now < deadline` is `fuel > 0`.
Cancellation is checked at the top of every round (the `select` on
`ctx.Done()`); it returns the partial stats together with `ctx.Err()`.
Reaching the deadline returns the stats with a nil error. -/
def startBrowseGo (env : Nat → RoundEvent) :
    Nat → Nat → BrowseStats → BrowseStats × Option GoErr
  | 0, now, stats => ({ stats with duration := now }, none)
  | fuel + 1, now, stats =>
    match env now with
    | .cancelled => ({ stats with duration := now }, some .ctxCanceled)
    | ev => startBrowseGo env fuel (now + 1) (addRound stats ev)

/-- `StartBrowse` from time `0` to `deadline`. -/
def startBrowse (env : Nat → RoundEvent) (deadline : Nat) :
    BrowseStats × Option GoErr :=
  startBrowseGo env deadline 0 emptyStats

/-- The stats contributed by rounds `now, now+1, …, now+n-1` on top of `s`. -/
def accumGo (env : Nat → RoundEvent) : Nat → Nat → BrowseStats → BrowseStats
  | 0, _, s => s
  | n + 1, now, s => accumGo env n (now + 1) (addRound s (env now))

/-- The stats accumulated by the first `t` rounds (the "partial stats"). -/
def accumStats (env : Nat → RoundEvent) (t : Nat) : BrowseStats :=
  accumGo env t 0 emptyStats

/- ---------------------------------------------------------------------- -/
/- RunParallelBrowse (src/recommendation/parallel.go)                      -/
/- ---------------------------------------------------------------------- -/

/-- `ParallelInstanceResult`: `stats` is the `*BrowseStats` pointer (nil =
`none`), `error` is the Go string field (empty = unset). -/
structure ParallelInstanceResult where
  instanceID : String
  stats : Option BrowseStats
  error : String
  deriving DecidableEq, Repr

/-- Outcome of a `StartBrowse` call inside one instance goroutine. -/
inductive BrowseOutcome
  | ok (s : BrowseStats)
  | err (e : String)
  deriving DecidableEq, Repr

/-- The external events one instance goroutine observes: the cookie login
check, the browse result, and the scan-login wait. -/
structure InstanceEnv where
  checkLoginOk : Bool
  loggedIn : Bool
  browse : BrowseOutcome
  waitForLoginOk : Bool
  loginCtxDone : Bool
  deriving DecidableEq, Repr

/-- The body of one instance goroutine of `RunParallelBrowse` (cookie saves
are warn-only and do not affect the result entry). -/
def runInstance (env : InstanceEnv) (id : String) : ParallelInstanceResult :=
  if env.checkLoginOk && env.loggedIn then
    match env.browse with
    | .err e => ⟨id, none, e⟩
    | .ok s => ⟨id, some s, ""⟩
  else if !env.waitForLoginOk then
    if env.loginCtxDone then ⟨id, none, "登录等待超时或被取消"⟩
    else ⟨id, none, "登录失败"⟩
  else
    match env.browse with
    | .err e => ⟨id, none, e⟩
    | .ok s => ⟨id, some s, ""⟩

/-- `RunParallelBrowse`: a non-positive `instances` is replaced by 3; each
instance `i` gets id `"instance" ++ toString (i+1)`; after the wait-group
barrier the aggregate error is non-nil iff no entry has stats. -/
def runParallelBrowse (envs : Nat → InstanceEnv) (instances : Int) :
    List ParallelInstanceResult × Option GoErr :=
  let n : Nat := if instances ≤ 0 then 3 else instances.toNat
  let results := (List.range n).map
    (fun i => runInstance (envs i) ("instance" ++ toString (i + 1)))
  let hasSuccess := results.any (fun r => r.stats.isSome)
  (results,
    if hasSuccess then none
    else some (.msg "60 秒内没有任何浏览器实例完成登录，任务已终止"))

/- ---------------------------------------------------------------------- -/
/- Ten-times campaign engine (src/xiaohongshu/browse.go)                   -/
/- ---------------------------------------------------------------------- -/

/-- `tenNoteState` (JSON-persisted per-item campaign record). `count` is a
Go `int`; timestamps are abstract ticks. -/
structure TenNoteState where
  author : String
  feedID : String
  title : String
  count : Int
  completed : Bool
  updatedAt : Nat
  deriving DecidableEq, Repr

/-- A fresh record as created by `ensureState`. -/
def freshTenNoteState (feedID : String) : TenNoteState :=
  ⟨"", feedID, "", 0, false, 0⟩

/-- The Go map `map[string]*tenNoteState` as an association list (one entry
per key; `insertState` replaces in place). -/
def StateMap := List (String × TenNoteState)

def lookupState (s : StateMap) (k : String) : Option TenNoteState :=
  match s with
  | [] => none
  | (k', v) :: rest => if k' = k then some v else lookupState rest k

def insertState (s : StateMap) (k : String) (v : TenNoteState) : StateMap :=
  match s with
  | [] => [(k, v)]
  | (k', v') :: rest =>
    if k' = k then (k', v) :: rest else (k', v') :: insertState rest k v

/-- The count recorded for key `k` (0 when the key is absent, matching the
fresh record `ensureState` would create). -/
def stateCount (s : StateMap) (k : String) : Int :=
  match lookupState s k with
  | some st => st.count
  | none => 0

/-- `tenTask` (a queued/active campaign target). -/
structure TenTask where
  author : String
  feedID : String
  xsecToken : String
  title : String
  deriving DecidableEq, Repr

/-- `tenTimesManager`. The file paths are kept as resolved names. -/
structure TenTimesManager where
  instanceID : String
  forceAll : Bool
  targets : List String
  completed : List String
  state : StateMap
  active : Option TenTask
  activeNotVisible : Int
  queue : List TenTask
  enqueued : List String
  timesPath : String
  completedPath : String
  statePath : String

/-- The durable files of one campaign instance: the parsed content of
`ten_state.json` (a map document, written atomically by `saveState`) and the
lines of the append-only `ten_completed` ledger file. -/
structure TenDisk where
  stateDoc : StateMap
  completedLines : List String

/-- `completedKey`. -/
def completedKey (author feedID : String) : String :=
  goTrim author ++ "," ++ goTrim feedID

/-- The completed-ledger clamp that the Go code repeats inline in
`ensureState` and `executeTenInteractionStep`: when the in-memory completed
ledger holds the `(st.Author, key)` pair, mark the record completed and
clamp the count up to 10. -/
def ledgerClamp (completed : List String) (st : TenNoteState)
    (keyFeedID : String) : TenNoteState :=
  if completed.contains (completedKey st.author keyFeedID) then
    { st with
      completed := true
      count := if st.count < 10 then 10 else st.count }
  else st

/-- `ensureState`: look up (or create) the record for `feedID`, then apply
the completed-ledger clamp. The returned map reflects the in-place pointer
update. -/
def ensureState (m : TenTimesManager) (feedID : String) :
    TenTimesManager × TenNoteState :=
  let st :=
    match lookupState m.state feedID with
    | some st => st
    | none => freshTenNoteState feedID
  let st := ledgerClamp m.completed st feedID
  ({ m with state := insertState m.state feedID st }, st)

/-- `saveState`: marshal `m.state` and write it atomically to the state
file. `saveOk = false` models a write error (logged as a warning by every
caller; the in-memory state continues). -/
def saveState (m : TenTimesManager) (disk : TenDisk) (saveOk : Bool) :
    TenDisk × Option GoErr :=
  if saveOk then ({ disk with stateDoc := m.state }, none)
  else (disk, some (.msg "write failed"))

/-- `appendCompleted`: append `author,title-or-placeholder\n` to the ledger
file and record the key in the in-memory completed set. `fileOk = false`
models a failure of `MkdirAll`/`OpenFile`/`WriteString`, which returns
before the in-memory set is updated. The returned list holds the lines
appended to the file. -/
def appendCompleted (m : TenTimesManager) (disk : TenDisk)
    (author feedID title : String) (fileOk : Bool) :
    TenTimesManager × TenDisk × List String × Option GoErr :=
  let author := goTrim author
  let feedID := goTrim feedID
  let key := completedKey author feedID
  if m.completed.contains key then (m, disk, [], none)
  else if !fileOk then (m, disk, [], some (.msg "append failed"))
  else
    let identifier := if goTrim title = "" then "(无标题)" else goTrim title
    let line := author ++ "," ++ identifier ++ "\n"
    ({ m with completed := key :: m.completed },
     { disk with completedLines := disk.completedLines ++ [line] },
     [line], none)

/-- The environment of one `executeTenInteractionStep` call: cancellation,
whether `findVisibleCardByFeedID` finds the card, whether `openNoteFromCard`
succeeds (within its two attempts), the current tick, and the success of the
state save and ledger append. Close/browse/like failures are logged and do
not alter the control flow that matters here. -/
structure StepEnv where
  ctxCancelled : Bool
  cardVisible : Bool
  openOk : Bool
  saveOk : Bool
  appendOk : Bool
  now : Nat
  deriving DecidableEq, Repr

/-- Result of `executeTenInteractionStep`. -/
structure StepOut where
  didInteract : Bool
  done : Bool
  err : Option GoErr
  mgr : TenTimesManager
  disk : TenDisk
  appended : List String

/-- The field refresh at the top of `executeTenInteractionStep`:
`st.Author = TrimSpace(task.Author)`, `st.FeedID = TrimSpace(task.FeedID)`,
and the title default. -/
def refreshTaskFields (st : TenNoteState) (task : TenTask) : TenNoteState :=
  let st := { st with author := goTrim task.author, feedID := goTrim task.feedID }
  if st.title = "" then { st with title := task.title } else st

/-- The count increment and completion check of one successful
interaction: `st.Count++`, `st.UpdatedAt = now`, and
`if st.Count >= 10 { st.Completed = true }`. -/
def bumpCount (st : TenNoteState) (now : Nat) : TenNoteState :=
  let st := { st with count := st.count + 1, updatedAt := now }
  if st.count ≥ 10 then { st with completed := true } else st

/-- `executeTenInteractionStep` (stats bookkeeping omitted — it never feeds
back into the campaign state). Mirrors the Go control flow:
empty-feed-id guard, context check, `ensureState`, field refresh, ledger
clamp, already-completed early return, visibility check, open with retry,
browse/first-time like+save/close, count increment, save, ledger append on
completion. -/
def executeTenInteractionStep (m : TenTimesManager) (disk : TenDisk)
    (task : TenTask) (env : StepEnv) : StepOut :=
  if goTrim task.feedID = "" then ⟨false, false, none, m, disk, []⟩
  else if env.ctxCancelled then ⟨false, false, some .ctxCanceled, m, disk, []⟩
  else
    let p := ensureState m task.feedID
    let m := p.1
    let st := refreshTaskFields p.2 task
    let st := ledgerClamp m.completed st st.feedID
    let m := { m with state := insertState m.state task.feedID st }
    if st.completed || st.count ≥ 10 then ⟨false, true, none, m, disk, []⟩
    else if !env.cardVisible then ⟨false, false, none, m, disk, []⟩
    else if !env.openOk then ⟨false, false, none, m, disk, []⟩
    else
      let st := bumpCount st env.now
      let m := { m with state := insertState m.state task.feedID st }
      let disk := (saveState m disk env.saveOk).1
      if st.completed then
        let r := appendCompleted m disk task.author task.feedID st.title env.appendOk
        ⟨true, true, none, r.1, r.2.1, r.2.2.1⟩
      else ⟨true, false, none, m, disk, []⟩

/-- What the scan loop observes about one visible note card: the
`extractNoteInfo` result and the DOM author/title extraction results
(`none` models an extraction error or an unreasonable string). -/
structure CardObs where
  feedID : String
  xsecToken : String
  infoOk : Bool
  domAuthor : Option String
  domTitle : Option String
  deriving DecidableEq, Repr

/-- The `feedMap` lookup: the Go map built by iterating over `feeds` keeps
the last entry for each non-empty id. -/
def lookupFeedMap (feeds : List Feed) (id : String) : Option Feed :=
  (feeds.filter (fun f => f.id ≠ "" && f.id = id)).getLast?

/-- The author name resolution of the scan loop: DOM extraction first, then
the `__INITIAL_STATE__` nickname fallback, then a trim. -/
def resolveScanAuthor (feeds : List Feed) (card : CardObs) : String :=
  let authorName := card.domAuthor.getD ""
  let authorName :=
    if authorName = "" then
      match lookupFeedMap feeds card.feedID with
      | some f => normalizeNickname f.noteCard.user
      | none => authorName
    else authorName
  goTrim authorName

/-- The title resolution of the scan loop: DOM extraction first, then the
feed's display title, then the feed's type string. -/
def resolveScanTitle (feeds : List Feed) (card : CardObs) : String :=
  let title :=
    match card.domTitle with
    | some t => goTrim t
    | none => ""
  match lookupFeedMap feeds card.feedID with
  | some f =>
    let title := if title = "" then goTrim f.noteCard.displayTitle else title
    if title = "" then goTrim f.noteCard.cardType else title
  | none => title

/-- The body of the `for _, card := range cards` scan loop of
`processTenTimesIfNeeded` for one card: skip bad cards, skip completed or
already-queued items, resolve the author, check the target filter, apply
the completed-ledger clamp, or enqueue a new task. -/
def scanCard (m : TenTimesManager) (feeds : List Feed) (card : CardObs) :
    TenTimesManager :=
  if !card.infoOk || card.feedID = "" then m
  else
    let p := ensureState m card.feedID
    let m := p.1
    let st := p.2
    if st.completed || st.count ≥ 10 then m
    else if m.enqueued.contains card.feedID then m
    else
      let authorName := resolveScanAuthor feeds card
      let matchedTarget := m.forceAll ||
        (authorName ≠ "" && m.targets.contains authorName)
      if authorName = "" then m
      else if !matchedTarget then m
      else if m.completed.contains (completedKey authorName card.feedID) then
        let st := { st with
          completed := true
          count := if st.count < 10 then 10 else st.count }
        { m with state := insertState m.state card.feedID st }
      else
        let title := resolveScanTitle feeds card
        { m with
          queue := m.queue ++ [⟨authorName, card.feedID, card.xsecToken, title⟩]
          enqueued := card.feedID :: m.enqueued }

/-- The whole scan loop. -/
def scanCards (m : TenTimesManager) (feeds : List Feed)
    (cards : List CardObs) : TenTimesManager :=
  cards.foldl (fun m card => scanCard m feeds card) m

/-- Environment of one `processTenTimesIfNeeded` call. -/
structure ProcEnv where
  stepEnv : StepEnv
  feeds : List Feed
  cardsOk : Bool
  cards : List CardObs
  deriving Repr

/-- Result of `processTenTimesIfNeeded`: the `processed` flag, the error,
the updated manager and files, and the ledger lines appended. -/
structure ProcOut where
  processed : Bool
  err : Option GoErr
  mgr : Option TenTimesManager
  disk : TenDisk
  appended : List String

/-- `processTenTimesIfNeeded`: nil-manager fast path; active-item branch
with the six-strikes not-visible bailout; otherwise scan the visible cards,
enqueue matches, and activate/step the head of the queue. -/
def processTenTimesIfNeeded (ten : Option TenTimesManager) (disk : TenDisk)
    (env : ProcEnv) : ProcOut :=
  match ten with
  | none => ⟨false, none, none, disk, []⟩
  | some m =>
    match m.active with
    | some act =>
      let r := executeTenInteractionStep m disk act env.stepEnv
      match r.err with
      | some e => ⟨true, some e, some r.mgr, r.disk, r.appended⟩
      | none =>
        let m' := r.mgr
        let m' := if r.done then { m' with active := none, activeNotVisible := 0 } else m'
        if !r.didInteract && !r.done then
          let m' := { m' with activeNotVisible := m'.activeNotVisible + 1 }
          if m'.activeNotVisible ≥ 6 then
            ⟨false, none,
             some { m' with active := none, activeNotVisible := 0 },
             r.disk, r.appended⟩
          else ⟨true, none, some m', r.disk, r.appended⟩
        else
          let m' := if r.didInteract then { m' with activeNotVisible := 0 } else m'
          ⟨true, none, some m', r.disk, r.appended⟩
    | none =>
      if !env.cardsOk then ⟨false, some (.msg "cards failed"), some m, disk, []⟩
      else
        let m := scanCards m env.feeds env.cards
        match m.queue with
        | [] => ⟨false, none, some m, disk, []⟩
        | task :: rest =>
          let m := { m with
            queue := rest
            enqueued := m.enqueued.filter (fun k => k ≠ task.feedID)
            active := some task
            activeNotVisible := 0 }
          let r := executeTenInteractionStep m disk task env.stepEnv
          match r.err with
          | some e => ⟨true, some e, some r.mgr, r.disk, r.appended⟩
          | none =>
            let m' := r.mgr
            let m' := if r.done then { m' with active := none, activeNotVisible := 0 } else m'
            let m' := if r.didInteract then { m' with activeNotVisible := 0 } else m'
            ⟨true, none, some m', r.disk, r.appended⟩

/-- `strings.ToLower`, character by character (kernel-computable). -/
def goToLower (s : String) : String := ⟨s.data.map Char.toLower⟩

/-- `TEN_TIMES_FORCE_ALL` parsing in `newTenTimesManager`. -/
def parseForceAll (v : String) : Bool :=
  let v := goToLower (goTrim v)
  v = "1" || v = "true" || v = "yes" || v = "on"

/-- `readLinesAsSet`: trim every line, drop empties (the file content is
modelled as its list of raw lines; `none` models a non-existent file). -/
def readLinesAsSet (content : Option (List String)) : Option (List String) :=
  match content with
  | none => none
  | some lines => some ((lines.map goTrim).filter (fun l => l ≠ ""))

/-- `newTenTimesManager`: decide force-all from the environment variable,
read the allow-list (absent or empty ⇒ no manager), truncate the completed
ledger file, and load the persisted state (`loadOk = false` models a
read/parse failure, which falls back to an empty state). -/
def newTenTimesManager (instanceID : String) (forceAllEnv : String)
    (targetsFile : Option (List String)) (clearOk : Bool) (loadOk : Bool)
    (disk : TenDisk) : Option TenTimesManager × TenDisk :=
  let names := resolveTenFileNames instanceID
  let forceAll := parseForceAll forceAllEnv
  let targets? :=
    if !forceAll then
      match readLinesAsSet targetsFile with
      | none => none
      | some targets => if targets.length = 0 then none else some targets
    else some []
  match targets? with
  | none => (none, disk)
  | some targets =>
    let disk := if clearOk then { disk with completedLines := [] } else disk
    let state := if loadOk then disk.stateDoc else []
    (some
      { instanceID := instanceID
        forceAll := forceAll
        targets := targets
        completed := []
        state := state
        active := none
        activeNotVisible := 0
        queue := []
        enqueued := []
        timesPath := names.1
        completedPath := names.2.1
        statePath := names.2.2 }, disk)

/-- One observable operation on the campaign system: a
`processTenTimesIfNeeded` call during a round, or a process restart
(shutdown discards the in-memory manager; the next run rebuilds it from the
durable files via `newTenTimesManager`). -/
inductive CampaignOp
  | proc (env : ProcEnv)
  | restart (instanceID forceAllEnv : String)
      (targetsFile : Option (List String)) (clearOk loadOk : Bool)

/-- The campaign-visible system state: the optional in-memory manager and
the durable files. -/
def CampSys := Option TenTimesManager × TenDisk

/-- Apply one operation. -/
def campStep (s : CampSys) : CampaignOp → CampSys
  | .proc env =>
    let r := processTenTimesIfNeeded s.1 s.2 env
    (r.mgr, r.disk)
  | .restart instanceID forceAllEnv targetsFile clearOk loadOk =>
    newTenTimesManager instanceID forceAllEnv targetsFile clearOk loadOk s.2

/-- Apply a whole trace of operations. -/
def campRun (s : CampSys) : List CampaignOp → CampSys
  | [] => s
  | op :: ops => campRun (campStep s op) ops

/- ---------------------------------------------------------------------- -/
/- Shared browser Manager (package browser, AcquireBrowser / release)      -/
/- ---------------------------------------------------------------------- -/

/-- Where one caller of `AcquireBrowser` is in its life cycle:
`idle` — has not entered `AcquireBrowser` yet; `waiting` — parked in
`cond.Wait` inside the `for m.inUse` loop; `runnable` — woken by
`cond.Signal`, about to re-check the loop condition; `holding` — returned
from `AcquireBrowser` with the lease; `done` — has called `release()`. -/
inductive TStatus
  | idle
  | waiting
  | runnable
  | holding
  | done
  deriving DecidableEq, Repr

/-- The state of the `Manager`: the `inUse` busy flag, whether the lazy
browser instance has been constructed, the status of each of the `N`
threads, and the condition-variable wait queue (Go's `sync.Cond` wakes
waiters FIFO-ish; `Signal` wakes the head). Every field mutation in the Go
code happens under `m.mu`, so one transition of this system is one
critical section. -/
structure BMState where
  inUse : Bool
  browserBuilt : Bool
  status : List TStatus
  waitQ : List Nat
  deriving DecidableEq, Repr

/-- `N` threads about to call `AcquireBrowser`, nobody holding. -/
def initBM (n : Nat) : BMState :=
  ⟨false, false, List.replicate n .idle, []⟩

/-- A scheduler choice: let thread `t` run its next critical section of
`AcquireBrowser` (initial attempt or re-check after a wake-up), or let the
holder `t` run `release()`. -/
inductive BMStep
  | acquire (t : Nat)
  | release (t : Nat)
  deriving DecidableEq, Repr

/-- One critical section. `acquire t` is enabled when `t` is `idle` or
`runnable`: with `inUse` set it parks `t` on the condition variable,
otherwise it constructs the browser if needed, sets `inUse`, and hands `t`
the lease. `release t` is enabled when `t` holds the lease: it clears
`inUse` and signals exactly the head waiter (a no-op signal when nobody
waits). Steps by threads in any other status are not enabled (`none`). -/
def bmApply (s : BMState) (step : BMStep) : Option BMState :=
  match step with
  | .acquire t =>
    match s.status[t]? with
    | some .idle | some .runnable =>
      if s.inUse then
        some { s with status := s.status.set t .waiting, waitQ := s.waitQ ++ [t] }
      else
        some { s with
          inUse := true
          browserBuilt := true
          status := s.status.set t .holding }
    | _ => none
  | .release t =>
    match s.status[t]? with
    | some .holding =>
      let s' : BMState :=
        { s with inUse := false, status := s.status.set t .done }
      match s'.waitQ with
      | [] => some s'
      | h :: rest =>
        some { s' with status := s'.status.set h .runnable, waitQ := rest }
    | _ => none

/-- Run a schedule; `none` as soon as a step is not enabled. -/
def bmRun (s : BMState) : List BMStep → Option BMState
  | [] => some s
  | step :: steps =>
    match bmApply s step with
    | none => none
    | some s' => bmRun s' steps

/-- Number of threads currently holding the lease. -/
def holdingCount (s : BMState) : Nat :=
  s.status.countP (fun st => st = .holding)

/-- No thread has an enabled step (bounded to the `N` real threads; steps
by out-of-range ids are never enabled). -/
def bmStuck (s : BMState) : Prop :=
  ∀ t < s.status.length,
    bmApply s (.acquire t) = none ∧ bmApply s (.release t) = none

instance (s : BMState) : Decidable (bmStuck s) := by
  unfold bmStuck; infer_instance

/- ---------------------------------------------------------------------- -/
/- Invariants and side conditions used by the campaign theorems            -/
/- ---------------------------------------------------------------------- -/

/-- The per-record campaign invariant: the completed flag tracks the
threshold, and the count stays inside `[0, 10]`. -/
def stInv (st : TenNoteState) : Prop :=
  (st.completed = true ↔ 10 ≤ st.count) ∧ 0 ≤ st.count ∧ st.count ≤ 10

/-- An author string is clean when its trimmed form has no comma (a comma
inside an author would make `completedKey` ambiguous). -/
def authorClean (a : String) : Prop := ',' ∉ (goTrim a).data

/-- A feed id is clean when trimming does not change it (real feed ids are
hex strings). -/
def feedClean (f : String) : Prop := goTrim f = f

def taskClean (t : TenTask) : Prop := authorClean t.author ∧ feedClean t.feedID

/-- Every record of a state map satisfies the invariant and has a clean
author. -/
def mapInv (s : StateMap) : Prop :=
  ∀ k st, lookupState s k = some st → stInv st ∧ authorClean st.author

/-- The manager/disk invariant: both maps are well-formed, the in-memory
counts agree with the persisted document, an in-memory ledger entry for a
clean pair implies its item already persisted at the threshold, and all
queued/active tasks are clean. -/
def mgrInv (m : TenTimesManager) (disk : TenDisk) : Prop :=
  mapInv m.state ∧ mapInv disk.stateDoc ∧
  (∀ f, stateCount m.state f = stateCount disk.stateDoc f) ∧
  (∀ a f, authorClean a → feedClean f →
    completedKey a f ∈ m.completed → 10 ≤ stateCount disk.stateDoc f) ∧
  (∀ t ∈ m.queue, taskClean t) ∧
  (∀ t, m.active = some t → taskClean t)

/-- System-level invariant (manager optional). -/
def sysInv (s : CampSys) : Prop :=
  mapInv s.2.stateDoc ∧
  match s.1 with
  | some m => mgrInv m s.2
  | none => True

/-- The durable interaction count of an item (the persisted document is the
value that survives restarts; while a manager is alive its in-memory count
agrees with it by `mgrInv`). -/
def obsCount (s : CampSys) (f : String) : Int := stateCount s.2.stateDoc f

/-- Cleanliness of one scanned card. -/
def cardClean (feeds : List Feed) (card : CardObs) : Prop :=
  feedClean card.feedID ∧ authorClean (resolveScanAuthor feeds card)

/-- Cleanliness/persistence-success of one `processTenTimesIfNeeded`
environment. -/
def procClean (env : ProcEnv) : Prop :=
  env.stepEnv.saveOk = true ∧ ∀ card ∈ env.cards, cardClean env.feeds card

/-- Per-operation side conditions for the campaign invariant theorem:
writes succeed and scanned strings are clean (a failed state write or a
corrupted state file is exactly the under-count the spec carves out). -/
def opClean : CampaignOp → Prop
  | .proc env => procClean env
  | .restart _ _ _ _ loadOk => loadOk = true

/-- The three campaign file names of an instance as a list. -/
def tenFileNameList (id : String) : List String :=
  [(resolveTenFileNames id).1, (resolveTenFileNames id).2.1,
   (resolveTenFileNames id).2.2]

/-- The orchestrator scenario of the spec: three instances, the second
fails its login wait, the other two browse successfully. -/
def scenarioInstanceEnv (i : Nat) : InstanceEnv :=
  if i = 1 then ⟨true, false, .ok emptyStats, false, true⟩
  else ⟨true, true, .ok emptyStats, true, false⟩

/-- Inductive invariant of the browser manager: `inUse` tracks the unique
holder; the wait queue is exactly the set of `waiting` threads, without
duplicates; and whenever the flag is clear but someone waits, some thread
is still able to run its acquire section (no lost wake-up). -/
def bmInv (s : BMState) : Prop :=
  (s.inUse = false → ∀ t : Nat, s.status[t]? ≠ some TStatus.holding) ∧
  (s.inUse = true → ∃ t : Nat, s.status[t]? = some TStatus.holding) ∧
  (∀ t u : Nat, s.status[t]? = some TStatus.holding →
    s.status[u]? = some TStatus.holding → t = u) ∧
  (∀ t ∈ s.waitQ, s.status[t]? = some TStatus.waiting) ∧
  (∀ t : Nat, s.status[t]? = some TStatus.waiting → t ∈ s.waitQ) ∧
  s.waitQ.Nodup ∧
  (s.inUse = false → s.waitQ ≠ [] →
    ∃ t : Nat, ∃ st' : TStatus, s.status[t]? = some st' ∧
      (st' = TStatus.idle ∨ st' = TStatus.runnable))

/-- Postcondition bundle of one `executeTenInteractionStep` call, used by
the invariant proofs: both maps stay well-formed, memory and disk counts
stay in sync, the ledger property is maintained, the queue/active fields
are untouched, and all counts are monotone. -/
def stepPost (m : TenTimesManager) (disk : TenDisk) (r : StepOut) : Prop :=
  mapInv r.mgr.state ∧ mapInv r.disk.stateDoc ∧
  (∀ f, stateCount r.mgr.state f = stateCount r.disk.stateDoc f) ∧
  (∀ a f, authorClean a → feedClean f → completedKey a f ∈ r.mgr.completed →
    10 ≤ stateCount r.disk.stateDoc f) ∧
  r.mgr.queue = m.queue ∧
  r.mgr.active = m.active ∧
  (∀ f, stateCount m.state f ≤ stateCount r.mgr.state f) ∧
  (∀ f, stateCount disk.stateDoc f ≤ stateCount r.disk.stateDoc f)

/- ====================================================================== -/
/- Theorems                                                                -/
/- ====================================================================== -/

/- Generic list helpers. -/

theorem take_app_len {α : Type} (l₁ l₂ : List α) :
    (l₁ ++ l₂).take l₁.length = l₁ :=
  List.take_left l₁ l₂

theorem drop_app_len {α : Type} (l₁ l₂ : List α) :
    (l₁ ++ l₂).drop l₁.length = l₂ :=
  List.drop_left l₁ l₂

theorem goSplitAux_of_none (sep : List Char) (fuel : Nat) (s : List Char)
    (h : firstIdxOfSub sep s = none) : goSplitAux sep fuel s = [s] := by
  cases fuel <;> simp [goSplitAux, h]

theorem firstIdx_single_of_not_mem {c : Char} {s : List Char} (h : c ∉ s) :
    firstIdxOfSub [c] s = none := by
  induction s with
  | nil => simp [firstIdxOfSub]
  | cons a t ih =>
    have h1 : c ≠ a := fun he => h (he ▸ List.mem_cons_self a t)
    have h2 : c ∉ t := fun ht => h (List.mem_cons_of_mem a ht)
    have hp : ([c].isPrefixOf (a :: t)) = false := by
      simp [List.isPrefixOf]
      exact h1
    simp [firstIdxOfSub, hp, ih h2]

theorem firstIdx_single_append {c : Char} {xs ys : List Char} (h : c ∉ xs) :
    firstIdxOfSub [c] (xs ++ c :: ys) = some xs.length := by
  induction xs with
  | nil => simp [firstIdxOfSub, List.isPrefixOf]
  | cons a t ih =>
    have h1 : c ≠ a := fun he => h (he ▸ List.mem_cons_self a t)
    have h2 : c ∉ t := fun ht => h (List.mem_cons_of_mem a ht)
    have hp : ([c].isPrefixOf (a :: (t ++ c :: ys))) = false := by
      simp [List.isPrefixOf]
      exact h1
    simp [firstIdxOfSub, hp, ih h2]

theorem goSplit_two {sep pre r : List Char} (hsep : ¬ sep = [])
    (hfirst : firstIdxOfSub sep (pre ++ sep ++ r) = some pre.length)
    (hrest : firstIdxOfSub sep r = none) :
    goSplit sep (pre ++ sep ++ r) = [pre, r] := by
  have h1 : (pre ++ sep ++ r).take pre.length = pre := by
    rw [List.append_assoc]
    exact take_app_len pre (sep ++ r)
  have h2 : (pre ++ sep ++ r).drop (pre.length + sep.length) = r := by
    have := drop_app_len (pre ++ sep) r
    rwa [List.length_append] at this
  simp only [goSplit, if_neg hsep]
  rw [show (pre ++ sep ++ r).length + 1 = ((pre ++ sep ++ r).length) + 1 from rfl]
  simp only [goSplitAux, hfirst, h1, h2]
  rw [goSplitAux_of_none _ _ _ hrest]

/-- C10 amended: on a URL of the form `⟨pre⟩/explore/⟨id⟩⟨tail⟩` whose only
`"/explore/"` occurrence is the displayed one, with a non-empty id free of
`'?'` and a tail that is empty or starts with `'?'`, `parseNoteURL` returns
`id` as the feed id; on a URL of the form `⟨v⟩xsec_token=⟨tok⟩⟨amp⟩` with a
NON-EMPTY token free of `'&'` and `amp` empty or starting with `'&'`, it
returns `tok` as the token (the non-emptiness is the amendment: when `'&'`
immediately follows `"xsec_token="` the code's `idx > 0` test fails and the
remainder including the `'&'` is returned, see the counterexample); a URL
without `"xsec_token="` yields an empty token and one without `"/explore/"`
yields an empty feed id. -/
theorem parseNoteURL_spec :
    (∀ pre id tl,
      id ≠ [] → '?' ∉ id →
      (tl = [] ∨ ∃ tl', tl = '?' :: tl') →
      firstIdxOfSub "/explore/".data (pre ++ "/explore/".data ++ (id ++ tl)) =
        some pre.length →
      firstIdxOfSub "/explore/".data (id ++ tl) = none →
      (parseNoteURL (pre ++ "/explore/".data ++ (id ++ tl))).1 = id) ∧
    (∀ v tok amp,
      tok ≠ [] → '&' ∉ tok →
      (amp = [] ∨ ∃ a', amp = '&' :: a') →
      firstIdxOfSub "xsec_token=".data (v ++ "xsec_token=".data ++ (tok ++ amp)) =
        some v.length →
      firstIdxOfSub "xsec_token=".data (tok ++ amp) = none →
      (parseNoteURL (v ++ "xsec_token=".data ++ (tok ++ amp))).2 = tok) ∧
    (∀ u, goContains u "xsec_token=".data = false → (parseNoteURL u).2 = []) ∧
    (∀ u, goContains u "/explore/".data = false → (parseNoteURL u).1 = []) := by
  refine ⟨?_, ?_, ?_, ?_⟩
  · intro pre id tl hid hq htl hfirst hrest
    have hsep : ¬ ("/explore/".data = []) := by decide
    have hsplit := goSplit_two hsep hfirst hrest
    have hcont : goContains (pre ++ "/explore/".data ++ (id ++ tl))
        "/explore/".data = true := by
      unfold goContains
      rw [hfirst]
      rfl
    simp only [parseNoteURL, hcont, if_true, hsplit]
    have hpath : ([pre, id ++ tl].getD 1 []) = id ++ tl := rfl
    simp only [List.length_cons, List.length_nil, hpath]
    norm_num
    rcases htl with h0 | ⟨tl', h1⟩
    · subst h0
      rw [List.append_nil, firstIdx_single_of_not_mem hq]
    · subst h1
      rw [firstIdx_single_append hq]
      have hlen : 0 < id.length := List.length_pos.mpr hid
      simp only [hlen, if_pos, take_app_len]
  · intro v tok amp htok ha hamp hfirst hrest
    have hsep : ¬ ("xsec_token=".data = []) := by decide
    have hsplit := goSplit_two hsep hfirst hrest
    have hcont : goContains (v ++ "xsec_token=".data ++ (tok ++ amp))
        "xsec_token=".data = true := by
      unfold goContains
      rw [hfirst]
      rfl
    simp only [parseNoteURL, hcont, if_true, hsplit]
    have hpath : ([v, tok ++ amp].getD 1 []) = tok ++ amp := rfl
    simp only [List.length_cons, List.length_nil, hpath]
    norm_num
    rcases hamp with h0 | ⟨a', h1⟩
    · subst h0
      rw [List.append_nil, firstIdx_single_of_not_mem ha]
    · subst h1
      rw [firstIdx_single_append ha]
      have hlen : 0 < tok.length := List.length_pos.mpr htok
      simp only [hlen, if_pos, take_app_len]
  · intro u h
    simp only [parseNoteURL, h]
    rfl
  · intro u h
    simp only [parseNoteURL, h]
    rfl

/-- Witness for `parseNoteURL_spec` at concrete URLs. -/
theorem parseNoteURL_spec_witness :
    (parseNoteURL ([] ++ "/explore/".data ++
      ("abc".data ++ ('?' :: "xsec_token=tok&x".data)))).1 = "abc".data ∧
    (parseNoteURL ("/explore/abc?".data ++ "xsec_token=".data ++
      ("tok".data ++ ('&' :: "x".data)))).2 = "tok".data :=
  ⟨parseNoteURL_spec.1 [] "abc".data ('?' :: "xsec_token=tok&x".data)
      (by decide) (by decide) (Or.inr ⟨_, rfl⟩) (by decide) (by decide),
   parseNoteURL_spec.2.1 "/explore/abc?".data "tok".data ('&' :: "x".data)
      (by decide) (by decide) (Or.inr ⟨_, rfl⟩) (by decide) (by decide)⟩

/-- C10 counterexample: on `/explore/abc?xsec_token=&xsec_source=pc` the
token claimed by the spec sentence ("the substring after `xsec_token=` up
to the next `&`") is empty, but the code returns the remainder including
the leading `&`, because `strings.Index(tokenPart, "&")` is `0` and the
code tests `idx > 0`. -/
theorem parseNoteURL_empty_token_cex :
    (parseNoteURL "/explore/abc?xsec_token=&xsec_source=pc".data).2 =
      "&xsec_source=pc".data ∧
    "&xsec_source=pc".data ≠ ([] : List Char) := by
  constructor
  · decide
  · decide

/- String helpers for the file-path theorems. -/

theorem split_first_at {c : Char} :
    ∀ {as : List Char} {cs bs ds : List Char}, c ∉ as → c ∉ cs →
      as ++ c :: bs = cs ++ c :: ds → as = cs ∧ bs = ds := by
  intro as
  induction as with
  | nil =>
    intro cs bs ds _ hc h
    cases cs with
    | nil => simpa using h
    | cons a t =>
      simp only [List.nil_append, List.cons_append, List.cons.injEq] at h
      exact absurd (h.1 ▸ List.mem_cons_self a t) hc
  | cons a t ih =>
    intro cs bs ds ha hc h
    cases cs with
    | nil =>
      simp only [List.cons_append, List.nil_append, List.cons.injEq] at h
      exact absurd (h.1.symm ▸ List.mem_cons_self a t) ha
    | cons a' t' =>
      simp only [List.cons_append, List.cons.injEq] at h
      obtain ⟨h1, h2⟩ := h
      subst h1
      have ha' : c ∉ t := fun hm => ha (List.mem_cons_of_mem a hm)
      have hc' : c ∉ t' := fun hm => hc (List.mem_cons_of_mem a hm)
      obtain ⟨e1, e2⟩ := ih ha' hc' h2
      exact ⟨by rw [e1], e2⟩

theorem string_ext {s t : String} (h : s.data = t.data) : s = t := by
  cases s
  cases t
  exact congrArg String.mk h

theorem affix_inj {p q s1 s2 : String} (h : p ++ s1 ++ q = p ++ s2 ++ q) :
    s1 = s2 := by
  have hd := congrArg String.data h
  rw [String.data_append, String.data_append, String.data_append,
    String.data_append] at hd
  exact string_ext (List.append_cancel_left (List.append_cancel_right hd))

theorem triple_ne {p1 q1 p2 q2 s1 s2 : String}
    (h4a : 4 < p1.data.length) (h4b : 4 < p2.data.length)
    (hne : p1.data[4]? ≠ p2.data[4]?) :
    p1 ++ s1 ++ q1 ≠ p2 ++ s2 ++ q2 := by
  intro he
  have hd := congrArg String.data he
  rw [String.data_append, String.data_append, String.data_append,
    String.data_append] at hd
  rw [List.append_assoc, List.append_assoc] at hd
  have e1 : (p1.data ++ (s1.data ++ q1.data))[4]? = p1.data[4]? :=
    List.getElem?_append_left h4a
  have e2 : (p2.data ++ (s2.data ++ q2.data))[4]? = p2.data[4]? :=
    List.getElem?_append_left h4b
  exact hne (e1 ▸ e2 ▸ congrArg (fun l => l[4]?) hd)

theorem suffix_digits (id : String) :
    ∀ c ∈ (instanceNumberSuffix id).data, isDigitChar c = true := by
  intro c hc
  unfold instanceNumberSuffix at hc
  by_cases h1 : goTrim id = ""
  · simp [h1] at hc
  · simp only [h1, if_false, if_neg h1] at hc
    by_cases h2 : trailingDigits (goTrim id).data = []
    · simp [h2] at hc
    · simp only [h2, if_false, if_neg h2] at hc
      by_cases h3 : goAtoiOk (trailingDigits (goTrim id).data) = true
      · simp only [h3, if_true] at hc
        have hm : c ∈ trailingDigits (goTrim id).data := hc
        unfold trailingDigits at hm
        rw [List.mem_reverse] at hm
        exact List.mem_takeWhile_imp hm
      · simp only [Bool.not_eq_true] at h3
        simp [h3] at hc

theorem no_slash_affix (pre post s : String)
    (hpre : '/' ∉ pre.data) (hpost : '/' ∉ post.data)
    (hs : ∀ c ∈ s.data, isDigitChar c = true) :
    '/' ∉ (pre ++ s ++ post).data := by
  rw [String.data_append, String.data_append]
  intro h
  rcases List.mem_append.mp h with h' | h'
  · rcases List.mem_append.mp h' with h'' | h''
    · exact hpre h''
    · have := hs _ h''
      simp [isDigitChar] at this
  · exact hpost h'

theorem joinPath_inj {d1 d2 n1 n2 : String}
    (h1 : '/' ∉ n1.data) (h2 : '/' ∉ n2.data)
    (h : joinPath d1 n1 = joinPath d2 n2) : n1 = n2 := by
  have hd := congrArg String.data h
  unfold joinPath at hd
  rw [String.data_append, String.data_append, String.data_append,
    String.data_append] at hd
  have hslash : ("/" : String).data = ['/'] := rfl
  rw [hslash] at hd
  have hd' : d1.data ++ '/' :: n1.data = d2.data ++ '/' :: n2.data := by
    simpa [List.append_assoc] using hd
  have hr := congrArg List.reverse hd'
  have hr' : n1.data.reverse ++ '/' :: d1.data.reverse =
      n2.data.reverse ++ '/' :: d2.data.reverse := by
    simpa [List.reverse_append, List.append_assoc] using hr
  have hm1 : '/' ∉ n1.data.reverse := by simpa using h1
  have hm2 : '/' ∉ n2.data.reverse := by simpa using h2
  have he := (split_first_at hm1 hm2 hr').1
  have he2 : n1.data = n2.data := by
    have := congrArg List.reverse he
    simpa using this
  exact string_ext he2

theorem resolveTenFileNames_eq (id : String) :
    resolveTenFileNames id =
      ("ten_times" ++ instanceNumberSuffix id ++ ".txt",
       "ten_completed" ++ instanceNumberSuffix id ++ ".txt",
       "ten_state" ++ instanceNumberSuffix id ++ ".json") := by
  unfold resolveTenFileNames
  by_cases h : instanceNumberSuffix id = ""
  · rw [h]
    simp only [ne_eq, not_true_eq_false, if_false]
    decide
  · simp [h]

theorem name_path_ne {p q p' q' s1 s2 d1 d2 : String}
    (hpre : '/' ∉ p.data) (hpost : '/' ∉ q.data)
    (hpre' : '/' ∉ p'.data) (hpost' : '/' ∉ q'.data)
    (hs1 : ∀ c ∈ s1.data, isDigitChar c = true)
    (hs2 : ∀ c ∈ s2.data, isDigitChar c = true)
    (hcase : (p = p' ∧ q = q' ∧ s1 ≠ s2) ∨
      (4 < p.data.length ∧ 4 < p'.data.length ∧ p.data[4]? ≠ p'.data[4]?)) :
    joinPath d1 (p ++ s1 ++ q) ≠ joinPath d2 (p' ++ s2 ++ q') := by
  intro heq
  have hsl1 := no_slash_affix p q s1 hpre hpost hs1
  have hsl2 := no_slash_affix p' q' s2 hpre' hpost' hs2
  have hn := joinPath_inj hsl1 hsl2 heq
  rcases hcase with ⟨h1, h2, h3⟩ | ⟨h1, h2, h3⟩
  · subst h1
    subst h2
    exact h3 (affix_inj hn)
  · exact triple_ne h1 h2 h3 hn

/-- C8 amended: two instance identifiers whose trailing-number suffixes
differ (as the orchestrator's `instance1 … instanceN` naming guarantees)
resolve to pairwise distinct campaign file paths, whatever directories the
existence probing picks. The identifiers themselves being distinct is NOT
enough — `instanceNumberSuffix` keeps only the trailing digits, see the
counterexample. -/
theorem resolveTenFiles_distinct_suffix_paths :
    ∀ id1 id2 d1 d2 : String,
      instanceNumberSuffix id1 ≠ instanceNumberSuffix id2 →
      ∀ a ∈ tenFileNameList id1, ∀ b ∈ tenFileNameList id2,
        joinPath d1 a ≠ joinPath d2 b := by
  intro id1 id2 d1 d2 hsuf a ha b hb heq
  have hna : tenFileNameList id1 =
      ["ten_times" ++ instanceNumberSuffix id1 ++ ".txt",
       "ten_completed" ++ instanceNumberSuffix id1 ++ ".txt",
       "ten_state" ++ instanceNumberSuffix id1 ++ ".json"] := by
    simp [tenFileNameList, resolveTenFileNames_eq]
  have hnb : tenFileNameList id2 =
      ["ten_times" ++ instanceNumberSuffix id2 ++ ".txt",
       "ten_completed" ++ instanceNumberSuffix id2 ++ ".txt",
       "ten_state" ++ instanceNumberSuffix id2 ++ ".json"] := by
    simp [tenFileNameList, resolveTenFileNames_eq]
  rw [hna] at ha
  rw [hnb] at hb
  have hd1 := suffix_digits id1
  have hd2 := suffix_digits id2
  simp only [List.mem_cons, List.mem_singleton, List.not_mem_nil, or_false] at ha hb
  rcases ha with ha | ha | ha <;> rcases hb with hb | hb | hb <;> subst ha <;> subst hb
  all_goals first
    | exact name_path_ne (by decide) (by decide) (by decide) (by decide)
        hd1 hd2 (Or.inl ⟨rfl, rfl, hsuf⟩) heq
    | exact name_path_ne (by decide) (by decide) (by decide) (by decide)
        hd1 hd2 (Or.inr ⟨by decide, by decide, by decide⟩) heq

/-- Witness for `resolveTenFiles_distinct_suffix_paths`: the two
orchestrator instances `instance1`, `instance2` get distinct allow-list
paths. -/
theorem resolveTenFiles_distinct_suffix_paths_witness :
    instanceNumberSuffix "instance1" ≠ instanceNumberSuffix "instance2" ∧
    joinPath "/wd" (resolveTenFileNames "instance1").1 ≠
      joinPath "/wd" (resolveTenFileNames "instance2").1 :=
  ⟨by decide,
   resolveTenFiles_distinct_suffix_paths "instance1" "instance2" "/wd" "/wd"
     (by decide) _ (by simp [tenFileNameList]) _ (by simp [tenFileNameList])⟩

/-- C8 counterexample: `"a1"` and `"b1"` are distinct instance identifiers,
but `instanceNumberSuffix` keeps only the trailing digits, so both resolve
to the same campaign state file path — the claim "distinct identifiers give
distinct paths" is false as stated. -/
theorem resolveTenFiles_distinct_ids_cex :
    ("a1" : String) ≠ "b1" ∧
    resolveTenFileNames "a1" = resolveTenFileNames "b1" ∧
    joinPath "/wd" (resolveTenFileNames "a1").2.2 =
      joinPath "/wd" (resolveTenFileNames "b1").2.2 := by
  refine ⟨by decide, by decide, by decide⟩

/- Feed selection (C7). -/

theorem list_pick {α : Type} (l : List α) (pick : Nat) (h : l ≠ []) :
    ∃ g, l.get? (pick % l.length) = some g ∧ g ∈ l := by
  have hl : 0 < l.length := List.length_pos.mpr h
  have hlt : pick % l.length < l.length := Nat.mod_lt _ hl
  exact ⟨l.get ⟨pick % l.length, hlt⟩, List.get?_eq_get hlt,
    List.get_mem _ _ hlt⟩

/-- C7 amended: whenever the feed list has an item with a NON-EMPTY id not
in the viewed set, the selected feed is one of those unseen items; when
every item's non-empty id is already viewed (or empty), the selection falls
back to the whole list; a non-empty list always yields a selection. The
non-empty-id qualification is the amendment: the code skips empty-id
entries when building `unviewed`, see the counterexample. -/
theorem selectFeedForClick_selection_spec :
    ∀ feeds viewed pick,
      ((∃ f ∈ feeds, f.id ≠ "" ∧ f.id ∉ viewed) →
        ∃ g, selectFeedForClick true feeds viewed pick = some g ∧
          g ∈ feeds ∧ g.id ≠ "" ∧ g.id ∉ viewed) ∧
      ((∀ f ∈ feeds, f.id = "" ∨ f.id ∈ viewed) → feeds ≠ [] →
        ∃ g, selectFeedForClick true feeds viewed pick = some g ∧ g ∈ feeds) ∧
      (feeds ≠ [] →
        (selectFeedForClick true feeds viewed pick).isSome = true) := by
  intro feeds viewed pick
  refine ⟨?_, ?_, ?_⟩
  · rintro ⟨f, hf, hid, hv⟩
    have hne0 : feeds ≠ [] := List.ne_nil_of_mem hf
    have hguard : ¬((true : Bool) = false ∨ feeds.length = 0) := by
      rintro (h | h)
      · exact absurd h (by decide)
      · exact hne0 (List.length_eq_zero.mp h)
    have hfmem : f ∈ feeds.filter
        (fun f => f.id ≠ "" && !(viewed.contains f.id)) := by
      rw [List.mem_filter]
      refine ⟨hf, ?_⟩
      simp [hid, hv]
    have hne : feeds.filter (fun f => f.id ≠ "" && !(viewed.contains f.id)) ≠ [] :=
      List.ne_nil_of_mem hfmem
    have hlen : 0 < (feeds.filter
        (fun f => f.id ≠ "" && !(viewed.contains f.id))).length :=
      List.length_pos.mpr hne
    obtain ⟨g, hg, hgm⟩ := list_pick
      (feeds.filter (fun f => f.id ≠ "" && !(viewed.contains f.id))) pick hne
    refine ⟨g, ?_, ?_⟩
    · simp only [selectFeedForClick]
      rw [if_neg hguard, if_pos hlen]
      exact hg
    · rw [List.mem_filter] at hgm
      obtain ⟨hg1, hg2⟩ := hgm
      simp only [Bool.and_eq_true, Bool.not_eq_true', ne_eq,
        decide_eq_true_eq] at hg2
      refine ⟨hg1, hg2.1, ?_⟩
      intro hmem
      have hc := hg2.2
      simp only [List.contains, List.elem_eq_mem, decide_eq_false_iff_not] at hc
      exact hc hmem
  · intro hall hne
    have hguard : ¬((true : Bool) = false ∨ feeds.length = 0) := by
      rintro (h | h)
      · exact absurd h (by decide)
      · exact hne (List.length_eq_zero.mp h)
    have hempty : feeds.filter
        (fun f => f.id ≠ "" && !(viewed.contains f.id)) = [] := by
      rw [List.filter_eq_nil_iff]
      intro f hf
      rcases hall f hf with h | h
      · simp [h]
      · simp [List.contains, List.elem_eq_mem, h]
    obtain ⟨g, hg, hgm⟩ := list_pick feeds pick hne
    refine ⟨g, ?_, hgm⟩
    simp only [selectFeedForClick]
    rw [if_neg hguard, hempty]
    simpa using hg
  · intro hne
    have hguard : ¬((true : Bool) = false ∨ feeds.length = 0) := by
      rintro (h | h)
      · exact absurd h (by decide)
      · exact hne (List.length_eq_zero.mp h)
    simp only [selectFeedForClick]
    rw [if_neg hguard]
    by_cases hu : 0 < (feeds.filter
        (fun f => f.id ≠ "" && !(viewed.contains f.id))).length
    · rw [if_pos hu]
      have hne' : feeds.filter
          (fun f => f.id ≠ "" && !(viewed.contains f.id)) ≠ [] := by
        intro h0
        rw [h0] at hu
        simp at hu
      obtain ⟨g, hg, _⟩ := list_pick
        (feeds.filter (fun f => f.id ≠ "" && !(viewed.contains f.id))) pick hne'
      rw [hg]
      rfl
    · rw [if_neg hu]
      obtain ⟨g, hg, _⟩ := list_pick feeds pick hne
      rw [hg]
      rfl

/-- Witness for `selectFeedForClick_selection_spec`. -/
theorem selectFeedForClick_selection_spec_witness :
    ∃ g, selectFeedForClick true [⟨"a", "", ⟨⟨"", ""⟩, "", ""⟩⟩] [] 0 = some g ∧
      g ∈ [(⟨"a", "", ⟨⟨"", ""⟩, "", ""⟩⟩ : Feed)] ∧ g.id ≠ "" ∧
      g.id ∉ ([] : List String) :=
  (selectFeedForClick_selection_spec _ _ 0).1
    ⟨⟨"a", "", ⟨⟨"", ""⟩, "", ""⟩⟩, by simp, by decide, by simp⟩

/-- C7 counterexample: the list holds an item with empty id that is not in
the viewed set (so by the claim the selection should be drawn from the
unseen items), yet the code's `unviewed` filter drops empty-id entries and
the fallback picks an already-viewed item. -/
theorem selectFeedForClick_unseen_claim_cex :
    selectFeedForClick true
      [⟨"", "", ⟨⟨"", ""⟩, "", ""⟩⟩, ⟨"a", "", ⟨⟨"", ""⟩, "", ""⟩⟩] ["a"] 1 =
      some ⟨"a", "", ⟨⟨"", ""⟩, "", ""⟩⟩ ∧
    ("" : String) ∉ ["a"] ∧ ("a" : String) ∈ ["a"] := by
  refine ⟨by decide, by decide, by decide⟩

/- Parallel orchestrator (C5). -/

theorem runInstance_instanceID (env : InstanceEnv) (id : String) :
    (runInstance env id).instanceID = id := by
  unfold runInstance
  by_cases h1 : env.checkLoginOk && env.loggedIn
  · rw [if_pos h1]
    cases env.browse <;> rfl
  · rw [if_neg h1]
    by_cases h2 : !env.waitForLoginOk
    · rw [if_pos h2]
      by_cases h3 : env.loginCtxDone
      · rw [if_pos h3]
      · rw [if_neg h3]
    · rw [if_neg h2]
      cases env.browse <;> rfl

theorem runInstance_stats_error (env : InstanceEnv) (id : String) :
    (runInstance env id).stats.isSome = true → (runInstance env id).error = "" := by
  unfold runInstance
  by_cases h1 : env.checkLoginOk && env.loggedIn
  · rw [if_pos h1]
    cases env.browse <;> simp
  · rw [if_neg h1]
    by_cases h2 : !env.waitForLoginOk
    · rw [if_pos h2]
      by_cases h3 : env.loginCtxDone
      · rw [if_pos h3]
        simp
      · rw [if_neg h3]
        simp
    · rw [if_neg h2]
      cases env.browse <;> simp

/-- C5 amended: for every POSITIVE `instanceCount` the result slice has
exactly `instanceCount` entries carrying ids `instance1 … instanceN`
(a non-positive count is replaced by the default 3, see the
counterexample); the aggregate error is nil iff at least one entry carries
stats; every stats entry has an empty error string; and in the
three-instance scenario with one failed login wait the aggregate is
non-error with exactly two stats entries and one error entry. -/
theorem runParallelBrowse_results_spec :
    ∀ envs (instances : Int), 1 ≤ instances →
      (((runParallelBrowse envs instances).1.length : Int) = instances) ∧
      (∀ i : Nat, ∀ r, (runParallelBrowse envs instances).1.get? i = some r →
        r.instanceID = "instance" ++ toString (i + 1)) ∧
      ((runParallelBrowse envs instances).2 = none ↔
        ∃ r ∈ (runParallelBrowse envs instances).1, r.stats.isSome = true) ∧
      (∀ r ∈ (runParallelBrowse envs instances).1,
        r.stats.isSome = true → r.error = "") ∧
      ((runParallelBrowse scenarioInstanceEnv 3).2 = none ∧
        ((runParallelBrowse scenarioInstanceEnv 3).1.countP
          (fun r => r.stats.isSome)) = 2 ∧
        ((runParallelBrowse scenarioInstanceEnv 3).1.countP
          (fun r => r.error ≠ "")) = 1) := by
  intro envs instances hpos
  have hneg : ¬ instances ≤ 0 := by omega
  have hn : (if instances ≤ 0 then 3 else instances.toNat) = instances.toNat := by
    rw [if_neg hneg]
  refine ⟨?_, ?_, ?_, ?_, ?_, ?_, ?_⟩
  · simp only [runParallelBrowse, hn, List.length_map, List.length_range]
    omega
  · intro i r hr
    simp only [runParallelBrowse, hn] at hr
    rw [List.get?_eq_getElem?, List.getElem?_map] at hr
    cases hri : (List.range instances.toNat)[i]? with
    | none =>
      rw [hri] at hr
      simp at hr
    | some j =>
      rw [hri] at hr
      simp only [Option.map_some'] at hr
      have hlt : i < instances.toNat := by
        by_contra hge
        rw [List.getElem?_eq_none (by simpa using Nat.le_of_not_lt hge)] at hri
        exact Option.noConfusion hri
      have hj : j = i := by
        rw [List.getElem?_range hlt] at hri
        exact (Option.some.inj hri).symm
      have hr2 : runInstance (envs j) ("instance" ++ toString (j + 1)) = r :=
        Option.some.inj hr
      rw [← hr2, runInstance_instanceID, hj]
  · simp only [runParallelBrowse, hn]
    by_cases h : ((List.range instances.toNat).map
        (fun i => runInstance (envs i) ("instance" ++ toString (i + 1)))).any
        (fun r => r.stats.isSome) = true
    · rw [if_pos h]
      rw [List.any_eq_true] at h
      constructor
      · intro _
        simpa using h
      · intro _
        rfl
    · rw [if_neg h]
      rw [List.any_eq_true] at h
      constructor
      · intro hc
        exact absurd hc (by simp)
      · intro hc
        exact absurd (by simpa using hc) h
  · intro r hr
    simp only [runParallelBrowse, hn] at hr
    rw [List.mem_map] at hr
    obtain ⟨i, _, hri⟩ := hr
    rw [← hri]
    exact runInstance_stats_error _ _
  · decide
  · decide
  · decide

/-- Witness for `runParallelBrowse_results_spec` at three instances. -/
theorem runParallelBrowse_results_spec_witness :
    (1 : Int) ≤ 3 ∧
    ((runParallelBrowse scenarioInstanceEnv 3).1.length : Int) = 3 :=
  ⟨by decide, (runParallelBrowse_results_spec scenarioInstanceEnv 3 (by decide)).1⟩

/-- C5 counterexample: with `instanceCount = 0` the claim demands a slice
of 0 entries, but the code replaces any non-positive count by 3 and returns
3 entries. -/
theorem runParallelBrowse_count_claim_cex :
    ((runParallelBrowse scenarioInstanceEnv 0).1.length = 3) ∧ (3 : Nat) ≠ 0 :=
  ⟨by decide, by decide⟩

/- StartBrowse loop (C6). -/

theorem startBrowseGo_no_cancel (env : Nat → RoundEvent) :
    ∀ fuel now stats,
      (∀ t, now ≤ t → t < now + fuel → env t ≠ .cancelled) →
      startBrowseGo env fuel now stats =
        ({ accumGo env fuel now stats with duration := now + fuel }, none) := by
  intro fuel
  induction fuel with
  | zero =>
    intro now stats _
    simp [startBrowseGo, accumGo]
  | succ n ih =>
    intro now stats h
    have hnow : env now ≠ .cancelled := h now le_rfl (by omega)
    cases hev : env now with
    | cancelled => exact absurd hev hnow
    | roundErr =>
      simp only [startBrowseGo, hev, accumGo]
      rw [ih (now + 1) (addRound stats .roundErr)
        (fun t h1 h2 => h t (by omega) (by omega))]
      rw [show now + 1 + n = now + (n + 1) from by omega]
    | roundOk sc ck lk fv cm vw =>
      simp only [startBrowseGo, hev, accumGo]
      rw [ih (now + 1) (addRound stats (.roundOk sc ck lk fv cm vw))
        (fun t h1 h2 => h t (by omega) (by omega))]
      rw [show now + 1 + n = now + (n + 1) from by omega]

theorem startBrowseGo_cancel (env : Nat → RoundEvent) :
    ∀ fuel now stats t,
      now ≤ t → t < now + fuel →
      env t = .cancelled →
      (∀ i, now ≤ i → i < t → env i ≠ .cancelled) →
      startBrowseGo env fuel now stats =
        ({ accumGo env (t - now) now stats with duration := t },
          some .ctxCanceled) := by
  intro fuel
  induction fuel with
  | zero =>
    intro now stats t h1 h2 _ _
    omega
  | succ n ih =>
    intro now stats t h1 h2 hc hno
    by_cases ht : t = now
    · subst ht
      simp only [startBrowseGo, hc, Nat.sub_self, accumGo]
    · have hlt : now < t := by omega
      have hnow : env now ≠ .cancelled := hno now le_rfl hlt
      have hsub : t - now = (t - (now + 1)) + 1 := by omega
      cases hev : env now with
      | cancelled => exact absurd hev hnow
      | roundErr =>
        simp only [startBrowseGo, hev]
        rw [ih (now + 1) (addRound stats .roundErr) t (by omega) (by omega) hc
          (fun i hi1 hi2 => hno i (by omega) hi2)]
        rw [hsub]
        simp only [accumGo, hev]
      | roundOk sc ck lk fv cm vw =>
        simp only [startBrowseGo, hev]
        rw [ih (now + 1) (addRound stats (.roundOk sc ck lk fv cm vw)) t
          (by omega) (by omega) hc (fun i hi1 hi2 => hno i (by omega) hi2)]
        rw [hsub]
        simp only [accumGo, hev]

/-- C6: the `StartBrowse` loop returns the accumulated stats with a nil
error when it reaches the deadline without observing cancellation; when the
context is cancelled at some round top before the deadline, it returns the
partial stats accumulated so far together with the cancellation error; and
an error result can only come from cancellation — per-round errors are
logged, paused on and retried without ever aborting the session. -/
theorem startBrowse_cancellation_and_deadline :
    ∀ env deadline,
      ((∀ t, t < deadline → env t ≠ .cancelled) →
        startBrowse env deadline =
          ({ accumStats env deadline with duration := deadline }, none)) ∧
      (∀ t, t < deadline → env t = .cancelled →
        (∀ i, i < t → env i ≠ .cancelled) →
        startBrowse env deadline =
          ({ accumStats env t with duration := t }, some .ctxCanceled)) ∧
      ((startBrowse env deadline).2 ≠ none →
        ∃ t, t < deadline ∧ env t = .cancelled) := by
  intro env deadline
  refine ⟨?_, ?_, ?_⟩
  · intro h
    unfold startBrowse accumStats
    rw [startBrowseGo_no_cancel env deadline 0 emptyStats
      (fun t _ h2 => h t (by omega))]
    rw [Nat.zero_add]
  · intro t h1 h2 h3
    unfold startBrowse accumStats
    rw [startBrowseGo_cancel env deadline 0 emptyStats t (by omega) (by omega)
      h2 (fun i _ hi => h3 i hi)]
    rw [Nat.sub_zero]
  · intro hne
    by_contra hno
    push_neg at hno
    have := startBrowseGo_no_cancel env deadline 0 emptyStats
      (fun t _ h2 => hno t (by omega))
    unfold startBrowse at hne
    rw [this] at hne
    exact hne rfl

/-- Witness for `startBrowse_cancellation_and_deadline`: cancellation at
round 2 of a 5-round session returns the two completed rounds' stats with
the cancellation error. -/
theorem startBrowse_cancellation_witness :
    2 < 5 ∧
    startBrowse (fun t => if t = 2 then RoundEvent.cancelled
        else RoundEvent.roundOk 1 1 0 0 0 []) 5 =
      ({ accumStats (fun t => if t = 2 then RoundEvent.cancelled
          else RoundEvent.roundOk 1 1 0 0 0 []) 2 with duration := 2 },
        some GoErr.ctxCanceled) :=
  ⟨by decide,
   (startBrowse_cancellation_and_deadline _ 5).2.1 2 (by decide) (by decide)
     (by decide)⟩

/- Browser manager (C9). -/

theorem getElem?_lt {α : Type} {l : List α} {n : Nat} {a : α}
    (h : l[n]? = some a) : n < l.length :=
  (List.getElem?_eq_some.mp h).1

theorem set_get_self {α : Type} {l : List α} {t : Nat} (v : α)
    (h : t < l.length) : (l.set t v)[t]? = some v := by
  rw [List.getElem?_set_self (by simpa using h)]

theorem set_get_ne {α : Type} {l : List α} {t u : Nat} (v : α) (h : u ≠ t) :
    (l.set t v)[u]? = l[u]? := by
  rw [List.getElem?_set_ne (fun he => h he.symm)]

theorem bmInv_init (n : Nat) : bmInv (initBM n) := by
  have hrep : ∀ t : Nat, (initBM n).status[t]? =
      if t < n then some TStatus.idle else none := by
    intro t
    show (List.replicate n TStatus.idle)[t]? = _
    rw [List.getElem?_replicate]
  refine ⟨?_, ?_, ?_, ?_, ?_, ?_, ?_⟩
  · intro _ t h
    rw [hrep t] at h
    by_cases ht : t < n <;> simp [ht] at h
  · intro h
    exact absurd h (by simp [initBM])
  · intro t u ht _
    rw [hrep t] at ht
    by_cases h : t < n <;> simp [h] at ht
  · intro t ht
    exact absurd ht (List.not_mem_nil t)
  · intro t ht
    rw [hrep t] at ht
    by_cases h : t < n <;> simp [h] at ht
  · exact List.nodup_nil
  · intro _ h
    exact absurd rfl h

theorem bmInv_step {s s' : BMState} {st : BMStep} (hinv : bmInv s)
    (happ : bmApply s st = some s') : bmInv s' := by
  obtain ⟨hm0, hm1, hmU, hw1, hw2, hnd, hpr⟩ := hinv
  cases st with
  | acquire t =>
    simp only [bmApply] at happ
    cases hget : s.status[t]? with
    | none => rw [hget] at happ; exact absurd happ (by simp)
    | some v =>
      rw [hget] at happ
      have htlen : t < s.status.length := getElem?_lt hget
      cases v with
      | idle =>
        by_cases hin : s.inUse = true
        · rw [if_pos hin] at happ
          obtain rfl := Option.some.inj happ
          have hnw : t ∉ s.waitQ := by
            intro hmem
            have := hw1 t hmem
            rw [hget] at this
            exact Option.noConfusion this (fun h => TStatus.noConfusion h)
          refine ⟨?_, ?_, ?_, ?_, ?_, ?_, ?_⟩
          · intro hfalse
            rw [hin] at hfalse
            exact absurd hfalse (by simp)
          · intro _
            obtain ⟨h0, hh0⟩ := hm1 hin
            have hne : h0 ≠ t := by
              intro he
              rw [he, hget] at hh0
              exact Option.noConfusion hh0 (fun h => TStatus.noConfusion h)
            exact ⟨h0, by rw [set_get_ne _ hne]; exact hh0⟩
          · intro a b ha hb
            have hanet : a ≠ t := by
              intro he
              rw [he, set_get_self _ htlen] at ha
              exact Option.noConfusion ha (fun h => TStatus.noConfusion h)
            have hbnet : b ≠ t := by
              intro he
              rw [he, set_get_self _ htlen] at hb
              exact Option.noConfusion hb (fun h => TStatus.noConfusion h)
            rw [set_get_ne _ hanet] at ha
            rw [set_get_ne _ hbnet] at hb
            exact hmU a b ha hb
          · intro u hu
            rcases List.mem_append.mp hu with hu | hu
            · have hne : u ≠ t := fun he => hnw (he ▸ hu)
              rw [set_get_ne _ hne]
              exact hw1 u hu
            · have : u = t := by simpa using hu
              subst this
              exact set_get_self _ htlen
          · intro u hu
            by_cases he : u = t
            · subst he
              exact List.mem_append.mpr (Or.inr (by simp))
            · rw [set_get_ne _ he] at hu
              exact List.mem_append.mpr (Or.inl (hw2 u hu))
          · rw [List.nodup_append]
            exact ⟨hnd, List.nodup_singleton t, by
              intro a ha hb
              have : a = t := by simpa using hb
              subst this
              exact hnw ha⟩
          · intro hfalse
            rw [hin] at hfalse
            exact absurd hfalse (by simp)
        · have hin' : s.inUse = false := by
            cases h : s.inUse
            · rfl
            · exact absurd h hin
          rw [hin', if_neg (by simp)] at happ
          obtain rfl := Option.some.inj happ
          refine ⟨?_, ?_, ?_, ?_, ?_, ?_, ?_⟩
          · intro hfalse
            exact absurd hfalse (by simp)
          · intro _
            exact ⟨t, set_get_self _ htlen⟩
          · intro a b ha hb
            by_cases hae : a = t
            · by_cases hbe : b = t
              · rw [hae, hbe]
              · rw [set_get_ne _ hbe] at hb
                exact absurd hb (hm0 hin' b)
            · rw [set_get_ne _ hae] at ha
              exact absurd ha (hm0 hin' a)
          · intro u hu
            have hne : u ≠ t := by
              intro he
              have := hw1 u hu
              rw [he, hget] at this
              exact Option.noConfusion this (fun h => TStatus.noConfusion h)
            rw [set_get_ne _ hne]
            exact hw1 u hu
          · intro u hu
            by_cases he : u = t
            · subst he
              rw [set_get_self _ htlen] at hu
              exact absurd hu (by simp)
            · rw [set_get_ne _ he] at hu
              exact hw2 u hu
          · exact hnd
          · intro hfalse _
            exact absurd hfalse (by simp)
      | runnable =>
        by_cases hin : s.inUse = true
        · rw [if_pos hin] at happ
          obtain rfl := Option.some.inj happ
          have hnw : t ∉ s.waitQ := by
            intro hmem
            have := hw1 t hmem
            rw [hget] at this
            exact Option.noConfusion this (fun h => TStatus.noConfusion h)
          refine ⟨?_, ?_, ?_, ?_, ?_, ?_, ?_⟩
          · intro hfalse
            rw [hin] at hfalse
            exact absurd hfalse (by simp)
          · intro _
            obtain ⟨h0, hh0⟩ := hm1 hin
            have hne : h0 ≠ t := by
              intro he
              rw [he, hget] at hh0
              exact Option.noConfusion hh0 (fun h => TStatus.noConfusion h)
            exact ⟨h0, by rw [set_get_ne _ hne]; exact hh0⟩
          · intro a b ha hb
            have hanet : a ≠ t := by
              intro he
              rw [he, set_get_self _ htlen] at ha
              exact Option.noConfusion ha (fun h => TStatus.noConfusion h)
            have hbnet : b ≠ t := by
              intro he
              rw [he, set_get_self _ htlen] at hb
              exact Option.noConfusion hb (fun h => TStatus.noConfusion h)
            rw [set_get_ne _ hanet] at ha
            rw [set_get_ne _ hbnet] at hb
            exact hmU a b ha hb
          · intro u hu
            rcases List.mem_append.mp hu with hu | hu
            · have hne : u ≠ t := fun he => hnw (he ▸ hu)
              rw [set_get_ne _ hne]
              exact hw1 u hu
            · have : u = t := by simpa using hu
              subst this
              exact set_get_self _ htlen
          · intro u hu
            by_cases he : u = t
            · subst he
              exact List.mem_append.mpr (Or.inr (by simp))
            · rw [set_get_ne _ he] at hu
              exact List.mem_append.mpr (Or.inl (hw2 u hu))
          · rw [List.nodup_append]
            exact ⟨hnd, List.nodup_singleton t, by
              intro a ha hb
              have : a = t := by simpa using hb
              subst this
              exact hnw ha⟩
          · intro hfalse
            rw [hin] at hfalse
            exact absurd hfalse (by simp)
        · have hin' : s.inUse = false := by
            cases h : s.inUse
            · rfl
            · exact absurd h hin
          rw [hin', if_neg (by simp)] at happ
          obtain rfl := Option.some.inj happ
          refine ⟨?_, ?_, ?_, ?_, ?_, ?_, ?_⟩
          · intro hfalse
            exact absurd hfalse (by simp)
          · intro _
            exact ⟨t, set_get_self _ htlen⟩
          · intro a b ha hb
            by_cases hae : a = t
            · by_cases hbe : b = t
              · rw [hae, hbe]
              · rw [set_get_ne _ hbe] at hb
                exact absurd hb (hm0 hin' b)
            · rw [set_get_ne _ hae] at ha
              exact absurd ha (hm0 hin' a)
          · intro u hu
            have hne : u ≠ t := by
              intro he
              have := hw1 u hu
              rw [he, hget] at this
              exact Option.noConfusion this (fun h => TStatus.noConfusion h)
            rw [set_get_ne _ hne]
            exact hw1 u hu
          · intro u hu
            by_cases he : u = t
            · subst he
              rw [set_get_self _ htlen] at hu
              exact absurd hu (by simp)
            · rw [set_get_ne _ he] at hu
              exact hw2 u hu
          · exact hnd
          · intro hfalse _
            exact absurd hfalse (by simp)
      | waiting => rw [show s.inUse = s.inUse from rfl] at happ; exact absurd happ (by simp)
      | holding => exact absurd happ (by simp)
      | done => exact absurd happ (by simp)
  | release t =>
    simp only [bmApply] at happ
    cases hget : s.status[t]? with
    | none => rw [hget] at happ; exact absurd happ (by simp)
    | some v =>
      rw [hget] at happ
      have htlen : t < s.status.length := getElem?_lt hget
      cases v with
      | idle => exact absurd happ (by simp)
      | runnable => exact absurd happ (by simp)
      | waiting => exact absurd happ (by simp)
      | done => exact absurd happ (by simp)
      | holding =>
        cases hq : s.waitQ with
        | nil =>
          rw [hq] at happ
          obtain rfl := Option.some.inj happ
          have hnoh : ∀ u : Nat, (s.status.set t TStatus.done)[u]? ≠
              some TStatus.holding := by
            intro u hu
            by_cases he : u = t
            · subst he
              rw [set_get_self _ htlen] at hu
              exact Option.noConfusion hu (fun h => TStatus.noConfusion h)
            · rw [set_get_ne _ he] at hu
              have := hmU u t hu hget
              exact he this
          refine ⟨?_, ?_, ?_, ?_, ?_, ?_, ?_⟩
          · intro _ u
            exact hnoh u
          · intro hfalse
            exact absurd hfalse (by simp)
          · intro a b ha _
            exact absurd ha (hnoh a)
          · intro u hu
            exact absurd hu (List.not_mem_nil u)
          · intro u hu
            by_cases he : u = t
            · subst he
              rw [set_get_self _ htlen] at hu
              exact Option.noConfusion hu (fun h => TStatus.noConfusion h)
            · rw [set_get_ne _ he] at hu
              have := hw2 u hu
              rw [hq] at this
              exact absurd this (List.not_mem_nil u)
          · exact List.nodup_nil
          · intro _ h
            exact absurd rfl h
        | cons h0 rest =>
          rw [hq] at happ
          obtain rfl := Option.some.inj happ
          have hh0w : s.status[h0]? = some TStatus.waiting :=
            hw1 h0 (hq ▸ List.mem_cons_self h0 rest)
          have hh0len : h0 < s.status.length := getElem?_lt hh0w
          have hh0t : h0 ≠ t := by
            intro he
            rw [he, hget] at hh0w
            exact Option.noConfusion hh0w (fun h => TStatus.noConfusion h)
          have hndq := hq ▸ hnd
          have hh0rest : h0 ∉ rest := (List.nodup_cons.mp hndq).1
          have hndrest : rest.Nodup := (List.nodup_cons.mp hndq).2
          have hnoh : ∀ u : Nat,
              ((s.status.set t TStatus.done).set h0 TStatus.runnable)[u]? ≠
              some TStatus.holding := by
            intro u hu
            by_cases he0 : u = h0
            · subst he0
              rw [set_get_self _ (by simpa using hh0len)] at hu
              exact Option.noConfusion hu (fun h => TStatus.noConfusion h)
            · rw [set_get_ne _ he0] at hu
              by_cases het : u = t
              · subst het
                rw [set_get_self _ htlen] at hu
                exact Option.noConfusion hu (fun h => TStatus.noConfusion h)
              · rw [set_get_ne _ het] at hu
                exact het (hmU u t hu hget)
          refine ⟨?_, ?_, ?_, ?_, ?_, ?_, ?_⟩
          · intro _ u
            exact hnoh u
          · intro hfalse
            exact absurd hfalse (by simp)
          · intro a b ha _
            exact absurd ha (hnoh a)
          · intro u hu
            have humem : u ∈ s.waitQ := hq ▸ List.mem_cons_of_mem h0 hu
            have huw := hw1 u humem
            have hu0 : u ≠ h0 := fun he => hh0rest (he ▸ hu)
            have hut : u ≠ t := by
              intro he
              rw [he, hget] at huw
              exact Option.noConfusion huw (fun h => TStatus.noConfusion h)
            rw [set_get_ne _ hu0, set_get_ne _ hut]
            exact huw
          · intro u hu
            by_cases he0 : u = h0
            · subst he0
              rw [set_get_self _ (by simpa using hh0len)] at hu
              exact Option.noConfusion hu (fun h => TStatus.noConfusion h)
            · rw [set_get_ne _ he0] at hu
              by_cases het : u = t
              · subst het
                rw [set_get_self _ htlen] at hu
                exact Option.noConfusion hu (fun h => TStatus.noConfusion h)
              · rw [set_get_ne _ het] at hu
                have := hw2 u hu
                rw [hq] at this
                rcases List.mem_cons.mp this with he | he
                · exact absurd he he0
                · exact he
          · exact hndrest
          · intro _ _
            exact ⟨h0, TStatus.runnable,
              set_get_self _ (by simpa using hh0len), Or.inr rfl⟩

theorem bmRun_inv : ∀ (steps : List BMStep) (s s' : BMState),
    bmInv s → bmRun s steps = some s' → bmInv s' := by
  intro steps
  induction steps with
  | nil =>
    intro s s' h hr
    simp only [bmRun] at hr
    exact (Option.some.inj hr) ▸ h
  | cons st rest ih =>
    intro s s' h hr
    simp only [bmRun] at hr
    cases ha : bmApply s st with
    | none =>
      rw [ha] at hr
      exact absurd hr (by simp)
    | some s1 =>
      rw [ha] at hr
      exact ih s1 s' (bmInv_step h ha) hr

theorem bmApply_length {s s' : BMState} {st : BMStep}
    (h : bmApply s st = some s') : s'.status.length = s.status.length := by
  cases st with
  | acquire t =>
    simp only [bmApply] at h
    cases hget : s.status[t]? with
    | none =>
      rw [hget] at h
      exact absurd h (by simp)
    | some v =>
      rw [hget] at h
      cases v with
      | idle =>
        cases hin : s.inUse
        · rw [hin, if_neg (by simp)] at h
          obtain rfl := Option.some.inj h
          simp
        · rw [hin, if_pos rfl] at h
          obtain rfl := Option.some.inj h
          simp
      | runnable =>
        cases hin : s.inUse
        · rw [hin, if_neg (by simp)] at h
          obtain rfl := Option.some.inj h
          simp
        · rw [hin, if_pos rfl] at h
          obtain rfl := Option.some.inj h
          simp
      | waiting => exact absurd h (by simp)
      | holding => exact absurd h (by simp)
      | done => exact absurd h (by simp)
  | release t =>
    simp only [bmApply] at h
    cases hget : s.status[t]? with
    | none =>
      rw [hget] at h
      exact absurd h (by simp)
    | some v =>
      rw [hget] at h
      cases v with
      | idle => exact absurd h (by simp)
      | runnable => exact absurd h (by simp)
      | waiting => exact absurd h (by simp)
      | done => exact absurd h (by simp)
      | holding =>
        cases hq : s.waitQ with
        | nil =>
          rw [hq] at h
          obtain rfl := Option.some.inj h
          simp
        | cons h0 rest =>
          rw [hq] at h
          obtain rfl := Option.some.inj h
          simp

theorem bmRun_length : ∀ (steps : List BMStep) (s s' : BMState),
    bmRun s steps = some s' → s'.status.length = s.status.length := by
  intro steps
  induction steps with
  | nil =>
    intro s s' hr
    simp only [bmRun] at hr
    rw [Option.some.inj hr]
  | cons st rest ih =>
    intro s s' hr
    simp only [bmRun] at hr
    cases ha : bmApply s st with
    | none =>
      rw [ha] at hr
      exact absurd hr (by simp)
    | some s1 =>
      rw [ha] at hr
      rw [ih s1 s' hr, bmApply_length ha]

/-- C9: along every valid schedule of the browser manager started with `N`
idle callers, (1) at most one thread holds the lease at any instant;
(2) a `release()` always clears the busy flag and wakes exactly the head
waiter (no other status changes) — a no-op signal when nobody waits; and
(3) whenever no thread can take another step — which requires every holder
to have run its `release()` — all `N` callers have acquired and finished,
so given that every holder eventually releases, all `N` acquire. -/
theorem browserManager_mutex_release_liveness :
    ∀ (n : Nat) (steps : List BMStep) (s' : BMState),
      bmRun (initBM n) steps = some s' →
      ((∀ t u : Nat, s'.status[t]? = some TStatus.holding →
          s'.status[u]? = some TStatus.holding → t = u) ∧
       (∀ (t : Nat) (s'' : BMState), s'.status[t]? = some TStatus.holding →
          bmApply s' (.release t) = some s'' →
          s''.inUse = false ∧
          ((s'.waitQ = [] ∧ s''.waitQ = [] ∧
              (∀ u : Nat, u ≠ t → s''.status[u]? = s'.status[u]?)) ∨
            (∃ h0 rest, s'.waitQ = h0 :: rest ∧ s''.waitQ = rest ∧
              s''.status[h0]? = some TStatus.runnable ∧
              (∀ u : Nat, u ≠ t → u ≠ h0 →
                s''.status[u]? = s'.status[u]?)))) ∧
       (bmStuck s' → ∀ t, t < n → s'.status[t]? = some TStatus.done)) := by
  intro n steps s' hrun
  have hinv := bmRun_inv steps (initBM n) s' (bmInv_init n) hrun
  have hlen : s'.status.length = n := by
    rw [bmRun_length steps _ _ hrun]
    simp [initBM]
  obtain ⟨hm0, hm1, hmU, hw1, hw2, hnd, hpr⟩ := hinv
  refine ⟨hmU, ?_, ?_⟩
  · intro t s'' hold happ
    simp only [bmApply, hold] at happ
    cases hq : s'.waitQ with
    | nil =>
      rw [hq] at happ
      obtain rfl := Option.some.inj happ
      refine ⟨rfl, Or.inl ⟨rfl, rfl, ?_⟩⟩
      intro u hu
      exact set_get_ne _ hu
    | cons h0 rest =>
      rw [hq] at happ
      obtain rfl := Option.some.inj happ
      have hh0w := hw1 h0 (hq ▸ List.mem_cons_self h0 rest)
      have hh0len : h0 < s'.status.length := getElem?_lt hh0w
      refine ⟨rfl, Or.inr ⟨h0, rest, rfl, rfl, ?_, ?_⟩⟩
      · exact set_get_self _ (by simpa using hh0len)
      · intro u hut hu0
        rw [set_get_ne _ hu0, set_get_ne _ hut]
  · intro hstuck t htn
    have htlen : t < s'.status.length := hlen ▸ htn
    have hget : s'.status[t]? = some s'.status[t] :=
      List.getElem?_eq_getElem htlen
    cases hv : s'.status[t] with
    | idle =>
      rw [hv] at hget
      have hs := (hstuck t htlen).1
      cases hin : s'.inUse <;> simp [bmApply, hget, hin] at hs
    | runnable =>
      rw [hv] at hget
      have hs := (hstuck t htlen).1
      cases hin : s'.inUse <;> simp [bmApply, hget, hin] at hs
    | holding =>
      rw [hv] at hget
      have hs := (hstuck t htlen).2
      cases hq : s'.waitQ <;> simp [bmApply, hget, hq] at hs
    | waiting =>
      rw [hv] at hget
      have hmem := hw2 t hget
      have hqne : s'.waitQ ≠ [] := fun h0 => by
        rw [h0] at hmem
        exact List.not_mem_nil t hmem
      cases hin : s'.inUse with
      | true =>
        obtain ⟨h0, hh0⟩ := hm1 hin
        have hh0len : h0 < s'.status.length := getElem?_lt hh0
        have hs := (hstuck h0 hh0len).2
        cases hq : s'.waitQ <;> simp [bmApply, hh0, hq] at hs
      | false =>
        obtain ⟨u, stu, hu, hor⟩ := hpr hin hqne
        have hulen : u < s'.status.length := getElem?_lt hu
        have hs := (hstuck u hulen).1
        rcases hor with h | h <;> rw [h] at hu <;>
          simp [bmApply, hu, hin] at hs
    | done =>
      rw [hv] at hget
      exact hget

/-- Witness for `browserManager_mutex_release_liveness`: two callers, a
full schedule (second caller waits, is woken by the first release,
acquires, releases); the final state is stuck and both are done. -/
theorem browserManager_mutex_release_liveness_witness :
    bmRun (initBM 2) [.acquire 0, .acquire 1, .release 0, .acquire 1,
      .release 1] = some
      ⟨false, true, [TStatus.done, TStatus.done], []⟩ ∧
    (∀ t, t < 2 →
      (⟨false, true, [TStatus.done, TStatus.done], []⟩ : BMState).status[t]? =
        some TStatus.done) :=
  ⟨by decide,
   (browserManager_mutex_release_liveness 2
      [.acquire 0, .acquire 1, .release 0, .acquire 1, .release 1]
      ⟨false, true, [TStatus.done, TStatus.done], []⟩ (by decide)).2.2
      (by decide)⟩

/- Campaign engine: state-map and trim lemmas. -/

theorem lookup_insert_self (s : StateMap) (k : String) (v : TenNoteState) :
    lookupState (insertState s k v) k = some v := by
  induction s with
  | nil => simp [insertState, lookupState]
  | cons p rest ih =>
    obtain ⟨k', v'⟩ := p
    by_cases h : k' = k
    · simp [insertState, h, lookupState]
    · simp only [insertState, if_neg h]
      simp only [lookupState, if_neg h]
      exact ih

theorem lookup_insert_ne (s : StateMap) (k k2 : String) (v : TenNoteState)
    (h : k2 ≠ k) :
    lookupState (insertState s k v) k2 = lookupState s k2 := by
  induction s with
  | nil =>
    simp only [insertState, lookupState]
    rw [if_neg (fun he => h he.symm)]
  | cons p rest ih =>
    obtain ⟨k', v'⟩ := p
    by_cases hk : k' = k
    · simp only [insertState, if_pos hk, lookupState]
      rw [if_neg (fun he => h (hk ▸ he).symm), if_neg (fun he => h (hk ▸ he).symm)]
    · simp only [insertState, if_neg hk, lookupState]
      by_cases h2 : k' = k2
      · rw [if_pos h2, if_pos h2]
      · rw [if_neg h2, if_neg h2]
        exact ih

theorem stateCount_insert_self (s : StateMap) (k : String) (v : TenNoteState) :
    stateCount (insertState s k v) k = v.count := by
  unfold stateCount
  rw [lookup_insert_self]

theorem stateCount_insert_ne (s : StateMap) (k k2 : String) (v : TenNoteState)
    (h : k2 ≠ k) : stateCount (insertState s k v) k2 = stateCount s k2 := by
  unfold stateCount
  rw [lookup_insert_ne s k k2 v h]

theorem mapInv_insert {s : StateMap} {k : String} {v : TenNoteState}
    (h : mapInv s) (hv : stInv v ∧ authorClean v.author) :
    mapInv (insertState s k v) := by
  intro k2 st2 hl
  by_cases he : k2 = k
  · subst he
    rw [lookup_insert_self] at hl
    exact (Option.some.inj hl) ▸ hv
  · rw [lookup_insert_ne s k k2 v he] at hl
    exact h k2 st2 hl

theorem stateCount_eq_of_lookup {s : StateMap} {k : String} {st : TenNoteState}
    (h : lookupState s k = some st) : stateCount s k = st.count := by
  unfold stateCount
  rw [h]

theorem mapInv_count_le_10 {s : StateMap} (h : mapInv s) (f : String) :
    stateCount s f ≤ 10 := by
  unfold stateCount
  cases hl : lookupState s f with
  | none => simp
  | some st => exact (h f st hl).1.2.2

theorem mapInv_count_nonneg {s : StateMap} (h : mapInv s) (f : String) :
    0 ≤ stateCount s f := by
  unfold stateCount
  cases hl : lookupState s f with
  | none => simp
  | some st => exact (h f st hl).1.2.1

theorem dropWhile_head_not (p : Char → Bool) :
    ∀ (l : List Char) a t, l.dropWhile p = a :: t → p a = false := by
  intro l
  induction l with
  | nil =>
    intro a t h
    exact absurd h (by simp)
  | cons b u ih =>
    intro a t h
    rw [List.dropWhile_cons] at h
    by_cases hb : p b
    · rw [if_pos hb] at h
      exact ih a t h
    · rw [if_neg hb] at h
      injection h with h1 _
      rw [← h1]
      simpa using hb

theorem dropWhile_eq_self_of_head (p : Char → Bool) (x : List Char)
    (h : ∀ a t, x = a :: t → p a = false) : x.dropWhile p = x := by
  cases x with
  | nil => rfl
  | cons a t =>
    rw [List.dropWhile_cons, h a t rfl]
    simp

theorem dropWhile_eq_self_of_prefix (p : Char → Bool) {x D : List Char}
    (hx : x <+: D) (hD : ∀ a t, D = a :: t → p a = false) :
    x.dropWhile p = x := by
  cases x with
  | nil => rfl
  | cons a t =>
    obtain ⟨rest, hrest⟩ := hx
    have hpa : p a = false := hD a (t ++ rest) (by rw [← hrest]; simp)
    rw [List.dropWhile_cons, hpa]
    simp

theorem goTrimList_idem (l : List Char) :
    goTrimList (goTrimList l) = goTrimList l := by
  unfold goTrimList
  have hBsufA : ((l.dropWhile isGoSpace).reverse.dropWhile isGoSpace) <:+
      (l.dropWhile isGoSpace).reverse := List.dropWhile_suffix _
  have hBrev : ((l.dropWhile isGoSpace).reverse.dropWhile isGoSpace).reverse <+:
      l.dropWhile isGoSpace := by
    have := List.reverse_prefix.mpr hBsufA
    rwa [List.reverse_reverse] at this
  have hAhead := dropWhile_head_not isGoSpace l
  have h1 : (((l.dropWhile isGoSpace).reverse.dropWhile isGoSpace).reverse).dropWhile
      isGoSpace = ((l.dropWhile isGoSpace).reverse.dropWhile isGoSpace).reverse :=
    dropWhile_eq_self_of_prefix isGoSpace hBrev hAhead
  have hBhead := dropWhile_head_not isGoSpace (l.dropWhile isGoSpace).reverse
  have h2 : ((l.dropWhile isGoSpace).reverse.dropWhile isGoSpace).dropWhile
      isGoSpace = (l.dropWhile isGoSpace).reverse.dropWhile isGoSpace :=
    dropWhile_eq_self_of_head isGoSpace _ hBhead
  rw [h1, List.reverse_reverse, h2]

theorem goTrim_idem (s : String) : goTrim (goTrim s) = goTrim s := by
  unfold goTrim
  exact congrArg String.mk (goTrimList_idem s.data)

theorem goTrim_data (s : String) : (goTrim s).data = goTrimList s.data := rfl

theorem authorClean_goTrim {a : String} (h : authorClean a) :
    authorClean (goTrim a) := by
  unfold authorClean at h ⊢
  rw [goTrim_idem]
  exact h

theorem feedClean_goTrim (f : String) : feedClean (goTrim f) := goTrim_idem f

theorem authorClean_empty : authorClean "" := by
  unfold authorClean
  decide

theorem completedKey_inj {a f A F : String}
    (ha : authorClean a) (hA : authorClean A)
    (h : completedKey a f = completedKey A F) :
    goTrim a = goTrim A ∧ goTrim f = goTrim F := by
  unfold completedKey at h
  have hd := congrArg String.data h
  rw [String.data_append, String.data_append, String.data_append,
    String.data_append] at hd
  have hcomma : ("," : String).data = [','] := rfl
  rw [hcomma] at hd
  have hd' : (goTrim a).data ++ ',' :: (goTrim f).data =
      (goTrim A).data ++ ',' :: (goTrim F).data := by
    simpa [List.append_assoc] using hd
  obtain ⟨h1, h2⟩ := split_first_at ha hA hd'
  exact ⟨string_ext h1, string_ext h2⟩

theorem mem_of_contains {l : List String} {x : String}
    (h : l.contains x = true) : x ∈ l := by
  simpa [List.contains, List.elem_iff] using h

theorem contains_of_mem {l : List String} {x : String}
    (h : x ∈ l) : l.contains x = true := by
  simpa [List.contains, List.elem_iff] using h

theorem ledgerClamp_spec {completed : List String} {st : TenNoteState}
    {fid : String} (hst : stInv st)
    (hhit : completed.contains (completedKey st.author fid) = true →
      10 ≤ st.count) :
    (ledgerClamp completed st fid).count = st.count ∧
    stInv (ledgerClamp completed st fid) ∧
    (ledgerClamp completed st fid).author = st.author ∧
    (ledgerClamp completed st fid).feedID = st.feedID ∧
    (ledgerClamp completed st fid).title = st.title := by
  unfold ledgerClamp
  by_cases hc : completed.contains (completedKey st.author fid) = true
  · have h10 := hhit hc
    rw [if_pos hc, if_neg (by omega : ¬ st.count < 10)]
    exact ⟨rfl, ⟨⟨fun _ => h10, fun _ => rfl⟩, hst.2.1, hst.2.2⟩, rfl, rfl, rfl⟩
  · rw [if_neg hc]
    exact ⟨rfl, hst, rfl, rfl, rfl⟩

theorem refreshTaskFields_spec (st : TenNoteState) (task : TenTask) :
    (refreshTaskFields st task).count = st.count ∧
    (refreshTaskFields st task).completed = st.completed ∧
    (refreshTaskFields st task).author = goTrim task.author ∧
    (refreshTaskFields st task).feedID = goTrim task.feedID := by
  unfold refreshTaskFields
  by_cases h : st.title = ""
  · rw [if_pos h]
    exact ⟨rfl, rfl, rfl, rfl⟩
  · rw [if_neg h]
    exact ⟨rfl, rfl, rfl, rfl⟩

theorem bumpCount_spec {st : TenNoteState} (now : Nat) (hst : stInv st)
    (hlt : st.count < 10) :
    (bumpCount st now).count = st.count + 1 ∧
    stInv (bumpCount st now) ∧
    (bumpCount st now).author = st.author ∧
    (bumpCount st now).title = st.title ∧
    ((bumpCount st now).completed = true ↔ 10 ≤ st.count + 1) := by
  have hcf : st.completed = false := by
    cases hco : st.completed
    · rfl
    · exact absurd (hst.1.mp hco) (by omega)
  have hnn : 0 ≤ st.count := hst.2.1
  unfold bumpCount
  by_cases h : st.count + 1 ≥ 10
  · rw [if_pos h]
    refine ⟨rfl, ⟨⟨fun _ => h, fun _ => rfl⟩, ?_, ?_⟩, rfl, rfl,
      ⟨fun _ => h, fun _ => rfl⟩⟩
    · show (0 : Int) ≤ st.count + 1
      omega
    · show st.count + 1 ≤ (10 : Int)
      omega
  · rw [if_neg h]
    refine ⟨rfl, ⟨?_, ?_, ?_⟩, rfl, rfl, ?_⟩
    · constructor
      · intro hco
        show (10 : Int) ≤ st.count + 1
        rw [show ({ st with count := st.count + 1, updatedAt := now } :
          TenNoteState).completed = st.completed from rfl, hcf] at hco
        exact absurd hco (by simp)
      · intro h10
        exact absurd h10 h
    · show (0 : Int) ≤ st.count + 1
      omega
    · show st.count + 1 ≤ (10 : Int)
      omega
    · constructor
      · intro hco
        rw [show ({ st with count := st.count + 1, updatedAt := now } :
          TenNoteState).completed = st.completed from rfl, hcf] at hco
        exact absurd hco (by simp)
      · intro h10
        exact absurd h10 h

theorem ensureState_spec {m : TenTimesManager} {disk : TenDisk}
    {feedID : String} (hinv : mgrInv m disk) (hfc : feedClean feedID) :
    (ensureState m feedID).1.state =
      insertState m.state feedID (ensureState m feedID).2 ∧
    (ensureState m feedID).1.completed = m.completed ∧
    (ensureState m feedID).1.queue = m.queue ∧
    (ensureState m feedID).1.active = m.active ∧
    (ensureState m feedID).1.enqueued = m.enqueued ∧
    (ensureState m feedID).1.forceAll = m.forceAll ∧
    (ensureState m feedID).1.targets = m.targets ∧
    (ensureState m feedID).2.count = stateCount m.state feedID ∧
    stInv (ensureState m feedID).2 ∧
    authorClean (ensureState m feedID).2.author := by
  obtain ⟨hmem, hdisk, hsync, hled, hq, hact⟩ := hinv
  cases hl : lookupState m.state feedID with
  | none =>
    have hzero : stateCount m.state feedID = 0 := by
      unfold stateCount
      rw [hl]
    have hhit : m.completed.contains
        (completedKey (freshTenNoteState feedID).author feedID) = true →
        10 ≤ (freshTenNoteState feedID).count := by
      intro hc
      have h10 := hled _ _ (show authorClean (freshTenNoteState feedID).author
        from authorClean_empty) hfc (mem_of_contains hc)
      rw [← hsync feedID, hzero] at h10
      omega
    have hstf : stInv (freshTenNoteState feedID) :=
      ⟨by simp [freshTenNoteState], by simp [freshTenNoteState],
        by simp [freshTenNoteState]⟩
    obtain ⟨hc1, hc2, hc3, hc4, hc5⟩ := ledgerClamp_spec hstf hhit
    have he : ensureState m feedID =
        ({ m with state := (insertState m.state feedID
          (ledgerClamp m.completed (freshTenNoteState feedID) feedID)) },
          ledgerClamp m.completed (freshTenNoteState feedID) feedID) := by
      simp only [ensureState, hl]
    rw [he]
    refine ⟨rfl, rfl, rfl, rfl, rfl, rfl, rfl, ?_, hc2, ?_⟩
    · rw [hc1, hzero]
      rfl
    · rw [hc3]
      exact authorClean_empty
  | some st0 =>
    have hcl := hmem feedID st0 hl
    have hcount : stateCount m.state feedID = st0.count :=
      stateCount_eq_of_lookup hl
    have hhit : m.completed.contains (completedKey st0.author feedID) = true →
        10 ≤ st0.count := by
      intro hc
      have h10 := hled _ _ hcl.2 hfc (mem_of_contains hc)
      rw [← hsync feedID, hcount] at h10
      exact h10
    obtain ⟨hc1, hc2, hc3, hc4, hc5⟩ := ledgerClamp_spec hcl.1 hhit
    have he : ensureState m feedID =
        ({ m with state := (insertState m.state feedID
          (ledgerClamp m.completed st0 feedID)) },
          ledgerClamp m.completed st0 feedID) := by
      simp only [ensureState, hl]
    rw [he]
    refine ⟨rfl, rfl, rfl, rfl, rfl, rfl, rfl, ?_, hc2, ?_⟩
    · rw [hc1, hcount]
    · rw [hc3]
      exact hcl.2

theorem stepPost_of_same_counts {m : TenTimesManager} {disk : TenDisk}
    (hinv : mgrInv m disk) {m2 : TenTimesManager} (hmap : mapInv m2.state)
    (hcnt : ∀ f, stateCount m2.state f = stateCount m.state f)
    (hcomp : m2.completed = m.completed)
    (hq : m2.queue = m.queue) (ha : m2.active = m.active)
    (di dn : Bool) (er : Option GoErr) (ap : List String) :
    stepPost m disk ⟨di, dn, er, m2, disk, ap⟩ := by
  obtain ⟨h1, h2, h3, h4, h5, h6⟩ := hinv
  refine ⟨hmap, h2, ?_, ?_, hq, ha, ?_, ?_⟩
  · intro f
    rw [hcnt f]
    exact h3 f
  · intro a f ha' hf hk
    rw [hcomp] at hk
    exact h4 a f ha' hf hk
  · intro f
    rw [hcnt f]
  · intro f
    exact le_refl _

theorem stInv_congr {st st' : TenNoteState} (hc : st'.count = st.count)
    (hp : st'.completed = st.completed) (h : stInv st) : stInv st' := by
  unfold stInv at h ⊢
  rw [hc, hp]
  exact h

theorem appendCompleted_spec (m : TenTimesManager) (disk : TenDisk)
    (author feedID title : String) (fileOk : Bool) :
    (appendCompleted m disk author feedID title fileOk).1.state = m.state ∧
    (appendCompleted m disk author feedID title fileOk).1.queue = m.queue ∧
    (appendCompleted m disk author feedID title fileOk).1.active = m.active ∧
    (appendCompleted m disk author feedID title fileOk).2.1.stateDoc =
      disk.stateDoc ∧
    (∀ k, k ∈ (appendCompleted m disk author feedID title fileOk).1.completed →
      k = completedKey author feedID ∨ k ∈ m.completed) := by
  have hkey : completedKey (goTrim author) (goTrim feedID) =
      completedKey author feedID := by
    unfold completedKey
    rw [goTrim_idem, goTrim_idem]
  simp only [appendCompleted]
  rw [hkey]
  by_cases hc : m.completed.contains (completedKey author feedID) = true
  · rw [if_pos hc]
    exact ⟨rfl, rfl, rfl, rfl, fun k hk => Or.inr hk⟩
  · rw [if_neg hc]
    by_cases hf : fileOk = true
    · rw [hf]
      simp only [Bool.not_true, Bool.false_eq_true, if_false]
      refine ⟨by trivial, by trivial, by trivial, by trivial, ?_⟩
      intro k hk
      rcases List.mem_cons.mp hk with h | h
      · exact Or.inl h
      · exact Or.inr h
    · have hf' : fileOk = false := by
        revert hf
        cases fileOk <;> simp
      rw [hf']
      simp only [Bool.not_false, if_true]
      exact ⟨by trivial, by trivial, by trivial, by trivial, fun k hk => Or.inr hk⟩

theorem stepPost_bump_save {m : TenTimesManager} {disk : TenDisk}
    (hinv : mgrInv m disk) (mB : TenTimesManager)
    (hmap : mapInv mB.state)
    (hq : mB.queue = m.queue) (ha : mB.active = m.active)
    (hcomp : mB.completed = m.completed)
    (hmono : ∀ f, stateCount m.state f ≤ stateCount mB.state f)
    (di dn : Bool) (er : Option GoErr) (ap : List String) :
    stepPost m disk ⟨di, dn, er, mB, (saveState mB disk true).1, ap⟩ := by
  obtain ⟨h1, h2, h3, h4, h5, h6⟩ := hinv
  refine ⟨hmap, hmap, fun f => rfl, ?_, hq, ha, hmono, ?_⟩
  · intro a f ha' hf hk
    rw [hcomp] at hk
    have h10 := h4 a f ha' hf hk
    calc (10 : Int) ≤ stateCount disk.stateDoc f := h10
      _ = stateCount m.state f := (h3 f).symm
      _ ≤ _ := hmono f
  · intro f
    calc stateCount disk.stateDoc f = stateCount m.state f := (h3 f).symm
      _ ≤ _ := hmono f

theorem stepPost_append_save {m : TenTimesManager} {disk : TenDisk}
    (hinv : mgrInv m disk) (mB : TenTimesManager)
    (hmap : mapInv mB.state)
    (hq : mB.queue = m.queue) (haC : mB.active = m.active)
    (hcomp : mB.completed = m.completed)
    (hmono : ∀ f, stateCount m.state f ≤ stateCount mB.state f)
    (author feedID title : String) (hA : authorClean author)
    (hF : feedClean feedID)
    (hthr : (10 : Int) ≤ stateCount mB.state feedID)
    (fileOk di dn : Bool) (er : Option GoErr) :
    stepPost m disk ⟨di, dn, er,
      (appendCompleted mB (saveState mB disk true).1 author feedID title fileOk).1,
      (appendCompleted mB (saveState mB disk true).1 author feedID title
        fileOk).2.1,
      (appendCompleted mB (saveState mB disk true).1 author feedID title
        fileOk).2.2.1⟩ := by
  obtain ⟨ha1, ha2, ha3, ha4, ha5⟩ :=
    appendCompleted_spec mB (saveState mB disk true).1 author feedID title fileOk
  obtain ⟨h1, h2, h3, h4, h5, h6⟩ := hinv
  have hdsk : ((saveState mB disk true).1).stateDoc = mB.state := rfl
  refine ⟨?_, ?_, ?_, ?_, ?_, ?_, ?_, ?_⟩
  · rw [ha1]
    exact hmap
  · rw [ha4, hdsk]
    exact hmap
  · intro f
    rw [ha1, ha4, hdsk]
  · intro a f ha' hf hk
    rw [ha4, hdsk]
    rcases ha5 _ hk with hknew | hkold
    · obtain ⟨_, hff⟩ := completedKey_inj ha' hA hknew
      have hf' : goTrim f = f := hf
      have hF' : goTrim feedID = feedID := hF
      have hfe : f = feedID := by rw [← hf', hff, hF']
      rw [hfe]
      exact hthr
    · rw [hcomp] at hkold
      have h10 := h4 a f ha' hf hkold
      calc (10 : Int) ≤ stateCount disk.stateDoc f := h10
        _ = stateCount m.state f := (h3 f).symm
        _ ≤ _ := hmono f
  · rw [ha2]
    exact hq
  · rw [ha3]
    exact haC
  · intro f
    rw [ha1]
    exact hmono f
  · intro f
    rw [ha4, hdsk]
    calc stateCount disk.stateDoc f = stateCount m.state f := (h3 f).symm
      _ ≤ _ := hmono f

theorem executeTen_spec {m : TenTimesManager} {disk : TenDisk} {task : TenTask}
    {env : StepEnv} (hinv : mgrInv m disk) (htask : taskClean task)
    (hsave : env.saveOk = true) :
    stepPost m disk (executeTenInteractionStep m disk task env) := by
  obtain ⟨htA, htF⟩ := htask
  by_cases h1 : goTrim task.feedID = ""
  · unfold executeTenInteractionStep
    rw [if_pos h1]
    exact stepPost_of_same_counts hinv hinv.1 (fun f => rfl) rfl rfl rfl _ _ _ _
  · by_cases h2 : env.ctxCancelled = true
    · unfold executeTenInteractionStep
      rw [if_neg h1, h2, if_pos rfl]
      exact stepPost_of_same_counts hinv hinv.1 (fun f => rfl) rfl rfl rfl _ _ _ _
    · have h2' : env.ctxCancelled = false := by
        revert h2
        cases env.ctxCancelled <;> simp
      unfold executeTenInteractionStep
      rw [if_neg h1, h2']
      rw [if_neg (by simp : ¬ ((false : Bool) = true))]
      obtain ⟨hs1, hs2, hs3, hs4, hs5, hs6, hs7, hsc, hsti, hsta⟩ :=
        ensureState_spec hinv htF
      simp only []
      set stE := (ensureState m task.feedID).2 with hstE
      set mE := (ensureState m task.feedID).1 with hmE
      set stR := refreshTaskFields stE task with hstR
      set stC := ledgerClamp mE.completed stR stR.feedID with hstC
      obtain ⟨hr1, hr2, hr3, hr4⟩ := refreshTaskFields_spec stE task
      have hstRI : stInv stR := stInv_congr hr1 hr2 hsti
      have hhit2 : mE.completed.contains
          (completedKey stR.author stR.feedID) = true → 10 ≤ stR.count := by
        intro hc
        rw [hs2, hr3, hr4] at hc
        have h10 := hinv.2.2.2.1 (goTrim task.author) (goTrim task.feedID)
          (authorClean_goTrim htA) (feedClean_goTrim task.feedID)
          (mem_of_contains hc)
        rw [htF, ← hinv.2.2.1 task.feedID] at h10
        rw [hr1, hsc]
        exact h10
      obtain ⟨hcc1, hcc2, hcc3, hcc4, hcc5⟩ := ledgerClamp_spec hstRI hhit2
      have hCc : stC.count = stateCount m.state task.feedID := by
        rw [hcc1, hr1, hsc]
      have hCA : authorClean stC.author := by
        rw [hcc3, hr3]
        exact authorClean_goTrim htA
      have hmapE : mapInv mE.state := by
        rw [hs1]
        exact mapInv_insert hinv.1 ⟨hsti, hsta⟩
      have hcntE : ∀ f, stateCount mE.state f = stateCount m.state f := by
        intro f
        rw [hs1]
        by_cases hf : f = task.feedID
        · subst hf
          rw [stateCount_insert_self]
          exact hsc
        · rw [stateCount_insert_ne _ _ _ _ hf]
      have hmapA : mapInv (insertState mE.state task.feedID stC) :=
        mapInv_insert hmapE ⟨hcc2, hCA⟩
      have hcntA : ∀ f, stateCount (insertState mE.state task.feedID stC) f =
          stateCount m.state f := by
        intro f
        by_cases hf : f = task.feedID
        · subst hf
          rw [stateCount_insert_self, hCc]
        · rw [stateCount_insert_ne _ _ _ _ hf]
          exact hcntE f
      split_ifs with hdone hvis hopen hfin
      · refine stepPost_of_same_counts hinv ?_ ?_ ?_ ?_ ?_ _ _ _ _
        · exact hmapA
        · exact hcntA
        · exact hs2
        · exact hs3
        · exact hs4
      · refine stepPost_of_same_counts hinv ?_ ?_ ?_ ?_ ?_ _ _ _ _
        · exact hmapA
        · exact hcntA
        · exact hs2
        · exact hs3
        · exact hs4
      · refine stepPost_of_same_counts hinv ?_ ?_ ?_ ?_ ?_ _ _ _ _
        · exact hmapA
        · exact hcntA
        · exact hs2
        · exact hs3
        · exact hs4
      · simp only [Bool.or_eq_true, decide_eq_true_eq, not_or] at hdone
        have hlt : stC.count < 10 := lt_of_not_ge hdone.2
        obtain ⟨hb1, hb2, hb3, hb4, hb5⟩ := @bumpCount_spec stC env.now hcc2 hlt
        have hBA : authorClean (bumpCount stC env.now).author := by
          rw [hb3]
          exact hCA
        have hmapB : mapInv (insertState (insertState mE.state task.feedID stC)
            task.feedID (bumpCount stC env.now)) :=
          mapInv_insert hmapA ⟨hb2, hBA⟩
        have hmono : ∀ f, stateCount m.state f ≤
            stateCount (insertState (insertState mE.state task.feedID stC)
              task.feedID (bumpCount stC env.now)) f := by
          intro f
          by_cases hfq : f = task.feedID
          · subst hfq
            rw [stateCount_insert_self, hb1, hCc]
            omega
          · rw [stateCount_insert_ne _ _ _ _ hfq, hcntA f]
        have hthr : (10 : Int) ≤
            stateCount (insertState (insertState mE.state task.feedID stC)
              task.feedID (bumpCount stC env.now)) task.feedID := by
          rw [stateCount_insert_self, hb1]
          have h10 := hb5.mp hfin
          omega
        rw [hsave]
        exact stepPost_append_save hinv
          { mE with state := (insertState (insertState mE.state task.feedID stC) task.feedID (bumpCount stC env.now)) }
          hmapB hs3 hs4 hs2 hmono task.author task.feedID
          (bumpCount stC env.now).title htA htF hthr env.appendOk true true none
      · simp only [Bool.or_eq_true, decide_eq_true_eq, not_or] at hdone
        have hlt : stC.count < 10 := lt_of_not_ge hdone.2
        obtain ⟨hb1, hb2, hb3, hb4, hb5⟩ := @bumpCount_spec stC env.now hcc2 hlt
        have hBA : authorClean (bumpCount stC env.now).author := by
          rw [hb3]
          exact hCA
        have hmapB : mapInv (insertState (insertState mE.state task.feedID stC)
            task.feedID (bumpCount stC env.now)) :=
          mapInv_insert hmapA ⟨hb2, hBA⟩
        have hmono : ∀ f, stateCount m.state f ≤
            stateCount (insertState (insertState mE.state task.feedID stC)
              task.feedID (bumpCount stC env.now)) f := by
          intro f
          by_cases hfq : f = task.feedID
          · subst hfq
            rw [stateCount_insert_self, hb1, hCc]
            omega
          · rw [stateCount_insert_ne _ _ _ _ hfq, hcntA f]
        rw [hsave]
        exact stepPost_bump_save hinv
          { mE with state := (insertState (insertState mE.state task.feedID stC) task.feedID (bumpCount stC env.now)) }
          hmapB hs3 hs4 hs2 hmono true false none []

theorem mgrInv_of_stepPost {m : TenTimesManager} {disk : TenDisk} {r : StepOut}
    (hq : ∀ t ∈ m.queue, taskClean t)
    (hact : ∀ t, m.active = some t → taskClean t)
    (hp : stepPost m disk r) : mgrInv r.mgr r.disk := by
  obtain ⟨p1, p2, p3, p4, p5, p6, p7, p8⟩ := hp
  refine ⟨p1, p2, p3, p4, ?_, ?_⟩
  · intro t ht
    rw [p5] at ht
    exact hq t ht
  · intro t ht
    rw [p6] at ht
    exact hact t ht

theorem mgrInv_tweak {m m' : TenTimesManager} {disk : TenDisk}
    (h : mgrInv m disk) (hs : m'.state = m.state)
    (hc : m'.completed = m.completed) (hqv : m'.queue = m.queue)
    (hav : m'.active = m.active ∨ m'.active = none) : mgrInv m' disk := by
  obtain ⟨h1, h2, h3, h4, h5, h6⟩ := h
  refine ⟨?_, h2, ?_, ?_, ?_, ?_⟩
  · rw [hs]
    exact h1
  · intro f
    rw [hs]
    exact h3 f
  · intro a f ha' hf hk
    rw [hc] at hk
    exact h4 a f ha' hf hk
  · intro t ht
    rw [hqv] at ht
    exact h5 t ht
  · intro t ht
    rcases hav with hv | hv
    · rw [hv] at ht
      exact h6 t ht
    · rw [hv] at ht
      exact absurd ht (by simp)

theorem scanCard_mgrInv {m : TenTimesManager} {disk : TenDisk}
    {feeds : List Feed} {card : CardObs}
    (hinv : mgrInv m disk) (hcard : cardClean feeds card) :
    mgrInv (scanCard m feeds card) disk := by
  obtain ⟨hfc, hac⟩ := hcard
  unfold scanCard
  by_cases hbad : (!card.infoOk || card.feedID = "") = true
  · rw [if_pos hbad]
    exact hinv
  · rw [if_neg hbad]
    obtain ⟨hs1, hs2, hs3, hs4, hs5, hs6, hs7, hsc, hsti, hsta⟩ :=
      ensureState_spec hinv hfc
    simp only []
    set stE := (ensureState m card.feedID).2 with hstE
    set mE := (ensureState m card.feedID).1 with hmE
    have hinvE : mgrInv mE disk := by
      obtain ⟨h1', h2', h3', h4', h5', h6'⟩ := hinv
      refine ⟨?_, h2', ?_, ?_, ?_, ?_⟩
      · rw [hs1]
        exact mapInv_insert h1' ⟨hsti, hsta⟩
      · intro f
        rw [hs1]
        by_cases hf : f = card.feedID
        · subst hf
          rw [stateCount_insert_self, hsc]
          exact h3' _
        · rw [stateCount_insert_ne _ _ _ _ hf]
          exact h3' f
      · intro a f ha' hf hk
        rw [hs2] at hk
        exact h4' a f ha' hf hk
      · intro t ht
        rw [hs3] at ht
        exact h5' t ht
      · intro t ht
        rw [hs4] at ht
        exact h6' t ht
    split_ifs with hfin hq ha hmt hled hcnt
    · exact hinvE
    · exact hinvE
    · exact hinvE
    · exact hinvE
    · -- ledger-hit clamp branch: impossible when the invariant holds
      exfalso
      simp only [Bool.or_eq_true, decide_eq_true_eq, not_or] at hfin
      have hmem := mem_of_contains hled
      rw [hs2] at hmem
      have h10 := hinv.2.2.2.1 _ _ hac hfc hmem
      rw [← hinv.2.2.1 card.feedID] at h10
      rw [← hsc] at h10
      exact absurd h10 (by omega)
    · exfalso
      simp only [Bool.or_eq_true, decide_eq_true_eq, not_or] at hfin
      have hmem := mem_of_contains hled
      rw [hs2] at hmem
      have h10 := hinv.2.2.2.1 _ _ hac hfc hmem
      rw [← hinv.2.2.1 card.feedID] at h10
      rw [← hsc] at h10
      exact absurd h10 (by omega)
    · -- enqueue branch
      obtain ⟨h1', h2', h3', h4', h5', h6'⟩ := hinvE
      refine ⟨h1', h2', h3', h4', ?_, h6'⟩
      intro t ht
      rcases List.mem_append.mp ht with h | h
      · exact h5' t h
      · rw [List.mem_singleton] at h
        subst h
        exact ⟨hac, hfc⟩

theorem scanCards_mgrInv {m : TenTimesManager} {disk : TenDisk}
    {feeds : List Feed} {cards : List CardObs}
    (hinv : mgrInv m disk) (hcards : ∀ card ∈ cards, cardClean feeds card) :
    mgrInv (scanCards m feeds cards) disk := by
  induction cards generalizing m with
  | nil => exact hinv
  | cons c cs ih =>
    exact ih (scanCard_mgrInv hinv (hcards c (List.mem_cons_self c cs)))
      (fun card hc => hcards card (List.mem_cons_of_mem c hc))

theorem procFinish {m2 : TenTimesManager} {disk : TenDisk} {r : StepOut}
    (hq : ∀ t ∈ m2.queue, taskClean t)
    (hact : ∀ t, m2.active = some t → taskClean t)
    (hpost : stepPost m2 disk r) (mF : TenTimesManager)
    (hs : mF.state = r.mgr.state) (hc : mF.completed = r.mgr.completed)
    (hqv : mF.queue = r.mgr.queue)
    (hav : mF.active = r.mgr.active ∨ mF.active = none) :
    sysInv (some mF, r.disk) ∧
    (∀ f, stateCount disk.stateDoc f ≤ stateCount r.disk.stateDoc f) := by
  have hinvR : mgrInv r.mgr r.disk := mgrInv_of_stepPost hq hact hpost
  exact ⟨⟨hpost.2.1, mgrInv_tweak hinvR hs hc hqv hav⟩,
    fun f => hpost.2.2.2.2.2.2.2 f⟩

theorem procTen_spec {ten : Option TenTimesManager} {disk : TenDisk}
    {env : ProcEnv} (hs : sysInv (ten, disk)) (henv : procClean env) :
    sysInv ((processTenTimesIfNeeded ten disk env).mgr,
            (processTenTimesIfNeeded ten disk env).disk) ∧
    (∀ f, stateCount disk.stateDoc f ≤
      stateCount (processTenTimesIfNeeded ten disk env).disk.stateDoc f) := by
  obtain ⟨hdoc, hmgr⟩ := hs
  cases ten with
  | none => exact ⟨⟨hdoc, trivial⟩, fun f => le_refl _⟩
  | some m =>
    have hmgr' : mgrInv m disk := hmgr
    simp only [processTenTimesIfNeeded]
    cases hact : m.active with
    | some act =>
      have hactC : taskClean act := hmgr'.2.2.2.2.2 act hact
      have hpost := executeTen_spec hmgr' hactC henv.1
      simp only []
      set r := executeTenInteractionStep m disk act env.stepEnv with hr
      cases herr : r.err with
      | some e =>
        refine procFinish hmgr'.2.2.2.2.1 hmgr'.2.2.2.2.2 hpost _ ?_ ?_ ?_ ?_
        · rfl
        · rfl
        · rfl
        · exact Or.inl rfl
      | none =>
        simp only []
        split_ifs with hdone hni hsix hdi <;>
          refine procFinish hmgr'.2.2.2.2.1 hmgr'.2.2.2.2.2 hpost _ ?_ ?_ ?_ ?_ <;>
          first
            | rfl
            | exact Or.inl rfl
            | exact Or.inr rfl
    | none =>
      by_cases hok : (!env.cardsOk) = true
      · rw [if_pos hok]
        exact ⟨⟨hdoc, hmgr'⟩, fun f => le_refl _⟩
      · rw [if_neg hok]
        simp only []
        have hinvS : mgrInv (scanCards m env.feeds env.cards) disk :=
          scanCards_mgrInv hmgr' henv.2
        set mS := scanCards m env.feeds env.cards with hmS
        cases hqv : mS.queue with
        | nil => exact ⟨⟨hdoc, hinvS⟩, fun f => le_refl _⟩
        | cons task rest =>
          simp only []
          have htaskC : taskClean task :=
            hinvS.2.2.2.2.1 task (by rw [hqv]; exact List.mem_cons_self _ _)
          have hinv2 : mgrInv { mS with queue := rest, enqueued := (mS.enqueued.filter (fun k => k ≠ task.feedID)), active := (some task), activeNotVisible := 0 } disk := by
            refine ⟨hinvS.1, hinvS.2.1, hinvS.2.2.1, hinvS.2.2.2.1, ?_, ?_⟩
            · intro t ht
              refine hinvS.2.2.2.2.1 t ?_
              rw [hqv]
              exact List.mem_cons_of_mem _ ht
            · intro t ht
              have he : some task = some t := ht
              rw [← Option.some.inj he]
              exact htaskC
          have hpost := executeTen_spec hinv2 htaskC henv.1
          have hq2 : ∀ t ∈ ({ mS with queue := rest, enqueued := (mS.enqueued.filter (fun k => k ≠ task.feedID)), active := (some task), activeNotVisible := 0 } : TenTimesManager).queue, taskClean t := hinv2.2.2.2.2.1
          have hact2 := hinv2.2.2.2.2.2
          cases herr : (executeTenInteractionStep { mS with queue := rest, enqueued := (mS.enqueued.filter (fun k => k ≠ task.feedID)), active := (some task), activeNotVisible := 0 } disk task env.stepEnv).err with
          | some e =>
            simp only []
            refine procFinish hq2 hact2 hpost _ ?_ ?_ ?_ ?_
            · rfl
            · rfl
            · rfl
            · exact Or.inl rfl
          | none =>
            simp only []
            split_ifs with hdone hdi <;>
              refine procFinish hq2 hact2 hpost _ ?_ ?_ ?_ ?_ <;>
              first
                | rfl
                | exact Or.inl rfl
                | exact Or.inr rfl

theorem newTen_sysInv {disk : TenDisk} (hdoc : mapInv disk.stateDoc)
    (id fenv : String) (tf : Option (List String)) (cok : Bool) :
    sysInv (newTenTimesManager id fenv tf cok true disk) ∧
    (newTenTimesManager id fenv tf cok true disk).2.stateDoc =
      disk.stateDoc := by
  unfold newTenTimesManager
  simp only []
  split
  · exact ⟨⟨hdoc, trivial⟩, rfl⟩
  · cases cok with
    | false =>
      refine ⟨⟨hdoc, ?_, hdoc, fun f => rfl, ?_, ?_, ?_⟩, rfl⟩
      · exact hdoc
      · intro a f ha' hf hk
        exact absurd hk (List.not_mem_nil _)
      · intro t ht
        exact absurd ht (List.not_mem_nil _)
      · intro t ht
        exact absurd ht (by simp)
    | true =>
      refine ⟨⟨hdoc, ?_, hdoc, fun f => rfl, ?_, ?_, ?_⟩, rfl⟩
      · exact hdoc
      · intro a f ha' hf hk
        exact absurd hk (List.not_mem_nil _)
      · intro t ht
        exact absurd ht (List.not_mem_nil _)
      · intro t ht
        exact absurd ht (by simp)

theorem campStep_sysInv {s : CampSys} {op : CampaignOp} (hs : sysInv s)
    (hop : opClean op) :
    sysInv (campStep s op) ∧
    ∀ f, obsCount s f ≤ obsCount (campStep s op) f := by
  obtain ⟨ten, disk⟩ := s
  cases op with
  | proc env =>
    exact procTen_spec hs hop
  | restart id fenv tf cok lok =>
    have hlok : lok = true := hop
    subst hlok
    obtain ⟨h1, h2⟩ := newTen_sysInv hs.1 id fenv tf cok
    refine ⟨h1, ?_⟩
    intro f
    show stateCount disk.stateDoc f ≤ _
    rw [show obsCount (campStep (ten, disk) (.restart id fenv tf cok true)) f =
      stateCount (newTenTimesManager id fenv tf cok true disk).2.stateDoc f
      from rfl, h2]

theorem campRun_sysInv {s : CampSys} {ops : List CampaignOp} (hs : sysInv s)
    (hops : ∀ op ∈ ops, opClean op) :
    sysInv (campRun s ops) ∧
    ∀ f, obsCount s f ≤ obsCount (campRun s ops) f := by
  induction ops generalizing s with
  | nil => exact ⟨hs, fun f => le_refl _⟩
  | cons op ops ih =>
    obtain ⟨h1, h2⟩ := campStep_sysInv hs (hops op (List.mem_cons_self _ _))
    obtain ⟨h3, h4⟩ := ih h1 (fun o ho => hops o (List.mem_cons_of_mem _ ho))
    exact ⟨h3, fun f => le_trans (h2 f) (h4 f)⟩

/-- C1: for every tracked campaign item state — in the persisted
campaign-state document and in the in-memory manager map, including states
reloaded from the file after a restart — the interaction count never
exceeds 10 (and never goes below 0), the completed flag is true exactly
when the count has reached 10, and the persisted count of every item is
monotonically non-decreasing along any sequence of campaign operations and
restarts whose state writes and reloads succeed and whose scanned strings
are clean. -/
theorem campaign_state_invariant_monotone {s : CampSys}
    {ops : List CampaignOp} (hs : sysInv s)
    (hops : ∀ op ∈ ops, opClean op) :
    sysInv (campRun s ops) ∧
    (∀ f, obsCount s f ≤ obsCount (campRun s ops) f) ∧
    (∀ k st, lookupState (campRun s ops).2.stateDoc k = some st →
      (st.completed = true ↔ 10 ≤ st.count) ∧ 0 ≤ st.count ∧ st.count ≤ 10) ∧
    (∀ m, (campRun s ops).1 = some m →
      ∀ k st, lookupState m.state k = some st →
        (st.completed = true ↔ 10 ≤ st.count) ∧
        0 ≤ st.count ∧ st.count ≤ 10) := by
  obtain ⟨h1, h2⟩ := campRun_sysInv hs hops
  refine ⟨h1, h2, fun k st hl => (h1.1 k st hl).1, ?_⟩
  intro m hm k st hl
  have h := h1.2
  rw [hm] at h
  have h' : mgrInv m (campRun s ops).2 := h
  exact (h'.1 k st hl).1

/-- Witness for `campaign_state_invariant_monotone`: the empty initial
system, one restart that builds a manager from an allow-list, and one
campaign round with no visible cards. -/
theorem campaign_state_invariant_monotone_witness :
    sysInv ((none, (⟨[], []⟩ : TenDisk)) : CampSys) ∧
    sysInv (campRun ((none, (⟨[], []⟩ : TenDisk)) : CampSys)
      [CampaignOp.restart "inst" "" (some ["alice"]) true true,
       CampaignOp.proc ⟨⟨false, true, true, true, true, 7⟩, [], true, []⟩]) := by
  have hs : sysInv ((none, (⟨[], []⟩ : TenDisk)) : CampSys) :=
    ⟨(fun k st h => nomatch h), trivial⟩
  refine ⟨hs, (campaign_state_invariant_monotone hs ?_).1⟩
  intro op hop
  rcases List.mem_cons.mp hop with h | h
  · subst h
    rfl
  · rw [List.mem_singleton] at h
    subst h
    exact ⟨rfl, fun c hc => absurd hc (List.not_mem_nil c)⟩

/-- C4: when force-all mode is off and the target allow-list file is absent
or contains only blank lines, `newTenTimesManager` returns no manager and
leaves the files untouched, every later campaign call on the nil manager
does nothing (`processed = false`, no manager, files unchanged, nothing
appended), and a whole run of campaign rounds leaves the system unchanged
(normal browsing proceeds). -/
theorem empty_allowlist_disables_campaign
    (instanceID forceAllEnv : String) (targetsFile : Option (List String))
    (clearOk loadOk : Bool) (disk : TenDisk)
    (hforce : parseForceAll forceAllEnv = false)
    (htargets : targetsFile = none ∨
      ∃ lines, targetsFile = some lines ∧ ∀ l ∈ lines, goTrim l = "") :
    newTenTimesManager instanceID forceAllEnv targetsFile clearOk loadOk disk =
      (none, disk) ∧
    (∀ env disk2,
      processTenTimesIfNeeded none disk2 env =
        ⟨false, none, none, disk2, []⟩) ∧
    (∀ envs : List ProcEnv,
      campRun (newTenTimesManager instanceID forceAllEnv targetsFile clearOk
        loadOk disk) (envs.map CampaignOp.proc) = (none, disk)) := by
  have hread : readLinesAsSet targetsFile = none ∨
      readLinesAsSet targetsFile = some [] := by
    rcases htargets with h | ⟨lines, h, hlines⟩
    · left
      rw [h]
      rfl
    · right
      rw [h]
      show some ((lines.map goTrim).filter (fun l => l ≠ "")) = some []
      congr 1
      rw [List.filter_eq_nil_iff]
      intro a ha
      rw [List.mem_map] at ha
      obtain ⟨l, hl, rfl⟩ := ha
      simp [hlines l hl]
  have hm : newTenTimesManager instanceID forceAllEnv targetsFile clearOk
      loadOk disk = (none, disk) := by
    rcases hread with h | h <;>
      simp [newTenTimesManager, hforce, h]
  refine ⟨hm, fun env disk2 => rfl, ?_⟩
  intro envs
  rw [hm]
  induction envs with
  | nil => rfl
  | cons e es ih =>
    simp only [List.map_cons]
    exact ih

/-- Witness for `empty_allowlist_disables_campaign`: an allow-list file of
two blank lines with force-all unset yields no manager. -/
theorem empty_allowlist_disables_campaign_witness :
    parseForceAll "" = false ∧
    newTenTimesManager "inst" "" (some ["", "  "]) true true
      (⟨[], []⟩ : TenDisk) = (none, (⟨[], []⟩ : TenDisk)) :=
  ⟨by decide,
   (empty_allowlist_disables_campaign "inst" "" (some ["", "  "]) true true
      ⟨[], []⟩ (by decide) (Or.inr ⟨["", "  "], rfl, by decide⟩)).1⟩

/-- C2: when the in-memory completed ledger holds the key of a clean
(author, item) pair, the item is treated as already completed without any
interaction: its tracked record sits at count 10 with the completed flag
set both after a re-scan (which never enqueues it) and after an activation
step (which interacts with nothing, reports the item done, and leaves the
files untouched). -/
theorem completed_ledger_idempotence {m : TenTimesManager} {disk : TenDisk}
    (hinv : mgrInv m disk)
    {feeds : List Feed} {card : CardObs} (hcard : cardClean feeds card)
    (hledS : completedKey (resolveScanAuthor feeds card) card.feedID ∈
      m.completed)
    {task : TenTask} {env : StepEnv} (htask : taskClean task)
    (hledA : completedKey task.author task.feedID ∈ m.completed)
    (hfid : goTrim task.feedID ≠ "") (hcc : env.ctxCancelled = false) :
    (scanCard m feeds card).queue = m.queue ∧
    (∃ st, lookupState (scanCard m feeds card).state card.feedID = some st ∧
      st.count = 10 ∧ st.completed = true) ∧
    (executeTenInteractionStep m disk task env).didInteract = false ∧
    (executeTenInteractionStep m disk task env).done = true ∧
    (executeTenInteractionStep m disk task env).err = none ∧
    (executeTenInteractionStep m disk task env).disk = disk ∧
    (executeTenInteractionStep m disk task env).appended = [] ∧
    (∃ st, lookupState (executeTenInteractionStep m disk task env).mgr.state
      task.feedID = some st ∧ st.count = 10 ∧ st.completed = true) := by
  obtain ⟨hfc, hac⟩ := hcard
  obtain ⟨htA, htF⟩ := htask
  have h10S : (10 : Int) ≤ stateCount m.state card.feedID := by
    rw [hinv.2.2.1]
    exact hinv.2.2.2.1 _ _ hac hfc hledS
  have h10A : (10 : Int) ≤ stateCount m.state task.feedID := by
    rw [hinv.2.2.1]
    exact hinv.2.2.2.1 _ _ htA htF hledA
  have hscan : (scanCard m feeds card).queue = m.queue ∧
      (∃ st, lookupState (scanCard m feeds card).state card.feedID = some st ∧
        st.count = 10 ∧ st.completed = true) := by
    unfold scanCard
    by_cases hbad : (!card.infoOk || card.feedID = "") = true
    · rw [if_pos hbad]
      refine ⟨rfl, ?_⟩
      cases hlk : lookupState m.state card.feedID with
      | none =>
        exfalso
        have hz : stateCount m.state card.feedID = 0 := by
          unfold stateCount
          rw [hlk]
        omega
      | some st0 =>
        have hst0 := hinv.1 _ _ hlk
        have hceq := stateCount_eq_of_lookup hlk
        have hle := hst0.1.2.2
        have hcnt : st0.count = 10 := by omega
        exact ⟨st0, rfl, hcnt, hst0.1.1.mpr (by omega)⟩
    · rw [if_neg hbad]
      obtain ⟨hs1, hs2, hs3, hs4, hs5, hs6, hs7, hsc, hsti, hsta⟩ :=
        ensureState_spec hinv hfc
      simp only []
      set stE := (ensureState m card.feedID).2 with hstE
      set mE := (ensureState m card.feedID).1 with hmE
      have hle := hsti.2.2
      have hE10 : stE.count = 10 := by omega
      have hEcomp : stE.completed = true := hsti.1.mpr (by omega)
      have hguard : (stE.completed || decide (stE.count ≥ 10)) = true := by
        rw [hEcomp]
        rfl
      rw [if_pos hguard]
      refine ⟨hs3, stE, ?_, hE10, hEcomp⟩
      rw [hs1]
      exact lookup_insert_self _ _ _
  refine ⟨hscan.1, hscan.2, ?_⟩
  unfold executeTenInteractionStep
  rw [if_neg hfid, hcc]
  rw [if_neg (by simp : ¬ ((false : Bool) = true))]
  obtain ⟨hs1, hs2, hs3, hs4, hs5, hs6, hs7, hsc, hsti, hsta⟩ :=
    ensureState_spec hinv htF
  simp only []
  set stE := (ensureState m task.feedID).2 with hstE
  set mE := (ensureState m task.feedID).1 with hmE
  set stR := refreshTaskFields stE task with hstR
  set stC := ledgerClamp mE.completed stR stR.feedID with hstC
  obtain ⟨hr1, hr2, hr3, hr4⟩ := refreshTaskFields_spec stE task
  have hstRI : stInv stR := stInv_congr hr1 hr2 hsti
  have hle := hsti.2.2
  have hE10 : stE.count = 10 := by omega
  have hhit : mE.completed.contains
      (completedKey stR.author stR.feedID) = true → 10 ≤ stR.count := by
    intro _
    rw [hr1]
    omega
  obtain ⟨hcc1, hcc2, hcc3, hcc4, hcc5⟩ := ledgerClamp_spec hstRI hhit
  have hC10 : stC.count = 10 := by
    rw [hcc1, hr1]
    exact hE10
  have hCcomp : stC.completed = true := hcc2.1.mpr (le_of_eq hC10.symm)
  have hguard : (stC.completed || decide (stC.count ≥ 10)) = true := by
    rw [hCcomp]
    rfl
  rw [if_pos hguard]
  refine ⟨rfl, rfl, rfl, rfl, rfl, stC, ?_, hC10, hCcomp⟩
  show lookupState (insertState mE.state task.feedID stC) task.feedID = _
  exact lookup_insert_self _ _ _

/-- Witness for `completed_ledger_idempotence`: a manager whose ledger
holds `alice,item42` and whose maps carry the completed record; the
activation step reports done without interacting. -/
theorem completed_ledger_idempotence_witness :
    mgrInv
      ⟨"inst", false, ["alice"], ["alice,item42"],
       [("item42", ⟨"alice", "item42", "t", 10, true, 3⟩)], none, 0, [], [],
       "a", "b", "c"⟩
      ⟨[("item42", ⟨"alice", "item42", "t", 10, true, 3⟩)], []⟩ ∧
    (executeTenInteractionStep
      ⟨"inst", false, ["alice"], ["alice,item42"],
       [("item42", ⟨"alice", "item42", "t", 10, true, 3⟩)], none, 0, [], [],
       "a", "b", "c"⟩
      ⟨[("item42", ⟨"alice", "item42", "t", 10, true, 3⟩)], []⟩
      ⟨"alice", "item42", "tok", "t"⟩
      ⟨false, true, true, true, true, 5⟩).didInteract = false ∧
    (executeTenInteractionStep
      ⟨"inst", false, ["alice"], ["alice,item42"],
       [("item42", ⟨"alice", "item42", "t", 10, true, 3⟩)], none, 0, [], [],
       "a", "b", "c"⟩
      ⟨[("item42", ⟨"alice", "item42", "t", 10, true, 3⟩)], []⟩
      ⟨"alice", "item42", "tok", "t"⟩
      ⟨false, true, true, true, true, 5⟩).done = true := by
  have hmap : mapInv
      [("item42", (⟨"alice", "item42", "t", 10, true, 3⟩ : TenNoteState))] := by
    intro k st h
    unfold lookupState at h
    by_cases hk : ("item42" : String) = k
    · rw [if_pos hk] at h
      rw [← Option.some.inj h]
      refine ⟨⟨by decide, by decide, by decide⟩, ?_⟩
      show ',' ∉ (goTrim "alice").data
      decide
    · rw [if_neg hk] at h
      exact absurd h (by simp [lookupState])
  have hinv : mgrInv
      ⟨"inst", false, ["alice"], ["alice,item42"],
       [("item42", ⟨"alice", "item42", "t", 10, true, 3⟩)], none, 0, [], [],
       "a", "b", "c"⟩
      ⟨[("item42", ⟨"alice", "item42", "t", 10, true, 3⟩)], []⟩ := by
    refine ⟨hmap, hmap, fun f => rfl, ?_, ?_, ?_⟩
    · intro a f ha hf hk
      rw [List.mem_singleton] at hk
      have hkey : completedKey a f = completedKey "alice" "item42" := by
        rw [hk]
        decide
      have haA : authorClean "alice" := by
        show ',' ∉ (goTrim "alice").data
        decide
      obtain ⟨_, hf2⟩ := completedKey_inj ha haA hkey
      have hf' : goTrim f = f := hf
      have hfe : f = "item42" := by
        rw [← hf', hf2]
        decide
      subst hfe
      decide
    · intro t ht
      exact absurd ht (List.not_mem_nil _)
    · intro t ht
      exact absurd ht (by simp)
  have hcardC : cardClean []
      ⟨"item42", "tok", true, some "alice", some "t"⟩ := by
    constructor
    · show goTrim "item42" = "item42"
      decide
    · show ',' ∉ (goTrim (resolveScanAuthor []
        ⟨"item42", "tok", true, some "alice", some "t"⟩)).data
      decide
  have hledS : completedKey
      (resolveScanAuthor [] ⟨"item42", "tok", true, some "alice", some "t"⟩)
      (("item42" : String)) ∈ (["alice,item42"] : List String) := by decide
  have htaskC : taskClean ⟨"alice", "item42", "tok", "t"⟩ := by
    constructor
    · show ',' ∉ (goTrim "alice").data
      decide
    · show goTrim "item42" = "item42"
      decide
  have hledA : completedKey ("alice" : String) ("item42" : String) ∈
      (["alice,item42"] : List String) := by decide
  have hcc : ((⟨false, true, true, true, true, 5⟩ : StepEnv)).ctxCancelled =
      false := rfl
  have h := completed_ledger_idempotence hinv hcardC hledS htaskC hledA
    (by decide) hcc
  exact ⟨hinv, h.2.2.1, h.2.2.2.1⟩

theorem ledgerClamp_miss {completed : List String} {st : TenNoteState}
    {fid : String}
    (h : completed.contains (completedKey st.author fid) = false) :
    ledgerClamp completed st fid = st := by
  unfold ledgerClamp
  rw [h]
  simp

theorem ensureState_of_miss {m : TenTimesManager} {f : String}
    {st0 : TenNoteState} (hlk : lookupState m.state f = some st0)
    (hmiss : m.completed.contains (completedKey st0.author f) = false) :
    ensureState m f = ({ m with state := (insertState m.state f st0) }, st0) := by
  unfold ensureState
  rw [hlk]
  simp only []
  rw [ledgerClamp_miss hmiss]

theorem completedKey_trim (author feedID : String) :
    completedKey (goTrim author) (goTrim feedID) = completedKey author feedID := by
  unfold completedKey
  rw [goTrim_idem, goTrim_idem]

theorem saveState_true (m : TenTimesManager) (disk : TenDisk) :
    (saveState m disk true).1 = { disk with stateDoc := m.state } := rfl

theorem appendCompleted_of_new {m : TenTimesManager} {disk : TenDisk}
    {author feedID : String} (title : String)
    (hmiss : m.completed.contains (completedKey author feedID) = false) :
    appendCompleted m disk author feedID title true =
      ({ m with completed := (completedKey author feedID :: m.completed) },
       { disk with completedLines := (disk.completedLines ++
          [goTrim author ++ "," ++
            (if goTrim title = "" then "(无标题)" else goTrim title) ++
            "\n"]) },
       [goTrim author ++ "," ++
         (if goTrim title = "" then "(无标题)" else goTrim title) ++ "\n"],
       none) := by
  simp only [appendCompleted]
  rw [completedKey_trim, hmiss]
  simp

/-- C3: if the active campaign item is tracked at count 9, not completed,
with no stored title, then one fully successful campaign round bumps it to
count 10 with the completed flag set, appends the single ledger line
`trim(author),title-or-placeholder\n` to the completed file and records the
`author,item` key in the in-memory completed set, deactivates the item, and
persists the updated state document. -/
theorem ninth_to_tenth_interaction_completes {m : TenTimesManager}
    {disk : TenDisk} {task : TenTask} {st0 : TenNoteState} {penv : ProcEnv}
    (hinv : mgrInv m disk) (hact : m.active = some task)
    (htask : taskClean task) (hfid : goTrim task.feedID ≠ "")
    (hlk : lookupState m.state task.feedID = some st0)
    (h9 : st0.count = 9) (htitle : st0.title = "")
    (hcc : penv.stepEnv.ctxCancelled = false)
    (hvis : penv.stepEnv.cardVisible = true)
    (hopen : penv.stepEnv.openOk = true)
    (hsave : penv.stepEnv.saveOk = true)
    (happ : penv.stepEnv.appendOk = true) :
    (processTenTimesIfNeeded (some m) disk penv).processed = true ∧
    (processTenTimesIfNeeded (some m) disk penv).err = none ∧
    (processTenTimesIfNeeded (some m) disk penv).appended =
      [goTrim task.author ++ "," ++
        (if goTrim task.title = "" then "(无标题)" else goTrim task.title) ++
        "\n"] ∧
    (∃ m', (processTenTimesIfNeeded (some m) disk penv).mgr = some m' ∧
      m'.active = none ∧
      (∃ st', lookupState m'.state task.feedID = some st' ∧
        st'.count = 10 ∧ st'.completed = true) ∧
      completedKey task.author task.feedID ∈ m'.completed ∧
      (processTenTimesIfNeeded (some m) disk penv).disk.stateDoc = m'.state ∧
      (processTenTimesIfNeeded (some m) disk penv).disk.completedLines =
        disk.completedLines ++
          [goTrim task.author ++ "," ++
            (if goTrim task.title = "" then "(无标题)" else goTrim task.title)
            ++ "\n"]) := by
  obtain ⟨htA, htF⟩ := htask
  have hst0 := hinv.1 _ _ hlk
  have hcnt0 := stateCount_eq_of_lookup hlk
  have hmiss0 : m.completed.contains
      (completedKey st0.author task.feedID) = false := by
    cases hc : m.completed.contains (completedKey st0.author task.feedID) with
    | false => rfl
    | true =>
      exfalso
      have h10 := hinv.2.2.2.1 _ _ hst0.2 htF (mem_of_contains hc)
      rw [← hinv.2.2.1 task.feedID] at h10
      omega
  have hmissA : m.completed.contains
      (completedKey task.author task.feedID) = false := by
    cases hc : m.completed.contains (completedKey task.author task.feedID) with
    | false => rfl
    | true =>
      exfalso
      have h10 := hinv.2.2.2.1 _ _ htA htF (mem_of_contains hc)
      rw [← hinv.2.2.1 task.feedID] at h10
      omega
  obtain ⟨hr1, hr2, hr3, hr4⟩ := refreshTaskFields_spec st0 task
  have hcomp0 : st0.completed = false := by
    cases hcs : st0.completed
    · rfl
    · exact absurd (hst0.1.1.mp hcs) (by omega)
  have hmissR : m.completed.contains
      (completedKey (refreshTaskFields st0 task).author
        ((refreshTaskFields st0 task).feedID)) = false := by
    rw [hr3, hr4, completedKey_trim]
    exact hmissA
  have hstRi : stInv (refreshTaskFields st0 task) :=
    stInv_congr hr1 hr2 hst0.1
  have hlt : (refreshTaskFields st0 task).count < 10 := by
    rw [hr1]
    omega
  obtain ⟨hb1, hb2, hb3, hb4, hb5⟩ :=
    @bumpCount_spec (refreshTaskFields st0 task) penv.stepEnv.now hstRi hlt
  have hfin : (bumpCount (refreshTaskFields st0 task)
      penv.stepEnv.now).completed = true := by
    refine hb5.mpr ?_
    rw [hr1, h9]
    decide
  have hRt : (refreshTaskFields st0 task).title = task.title := by
    simp [refreshTaskFields, htitle]
  have hBt : (bumpCount (refreshTaskFields st0 task)
      penv.stepEnv.now).title = task.title := by
    rw [hb4, hRt]
  have hguard1 : ((refreshTaskFields st0 task).completed ||
      decide ((refreshTaskFields st0 task).count ≥ 10)) = false := by
    rw [hr2, hcomp0, hr1, h9]
    decide
  simp only [processTenTimesIfNeeded, hact]
  simp only [executeTenInteractionStep]
  rw [if_neg hfid, hcc]
  rw [if_neg (by simp : ¬ ((false : Bool) = true))]
  rw [ensureState_of_miss hlk hmiss0]
  simp only []
  rw [ledgerClamp_miss hmissR]
  rw [hguard1]
  rw [if_neg (by simp : ¬ ((false : Bool) = true))]
  rw [hvis]
  rw [if_neg (by simp : ¬ ((!true) = true))]
  rw [hopen]
  rw [if_neg (by simp : ¬ ((!true) = true))]
  rw [if_pos hfin]
  rw [hsave, saveState_true, happ]
  rw [hBt]
  simp only [appendCompleted]
  rw [completedKey_trim, hmissA]
  rw [if_neg (by simp : ¬ ((false : Bool) = true))]
  rw [if_neg (by simp : ¬ ((!true) = true))]
  simp only []
  rw [if_neg (by simp : ¬ ((!true && !true) = true))]
  simp only [if_true]
  refine ⟨trivial, trivial, trivial,
    ⟨_, rfl, rfl,
      ⟨bumpCount (refreshTaskFields st0 task) penv.stepEnv.now,
        lookup_insert_self _ _ _, ?_, hfin⟩,
      List.mem_cons_self _ _, rfl, trivial⟩⟩
  rw [hb1, hr1, h9]
  decide

/-- Witness for `ninth_to_tenth_interaction_completes`: `item42` by `alice`
at count 9; one good round makes it 10 and appends `alice,标题`. -/
theorem ninth_to_tenth_interaction_completes_witness :
    (processTenTimesIfNeeded
      (some ⟨"inst", false, ["alice"], [],
        [("item42", ⟨"alice", "item42", "", 9, false, 0⟩)],
        some ⟨"alice", "item42", "tok", "标题"⟩, 0, [], [], "a", "b", "c"⟩)
      ⟨[("item42", ⟨"alice", "item42", "", 9, false, 0⟩)], []⟩
      ⟨⟨false, true, true, true, true, 11⟩, [], true, []⟩).processed = true ∧
    (processTenTimesIfNeeded
      (some ⟨"inst", false, ["alice"], [],
        [("item42", ⟨"alice", "item42", "", 9, false, 0⟩)],
        some ⟨"alice", "item42", "tok", "标题"⟩, 0, [], [], "a", "b", "c"⟩)
      ⟨[("item42", ⟨"alice", "item42", "", 9, false, 0⟩)], []⟩
      ⟨⟨false, true, true, true, true, 11⟩, [], true, []⟩).appended =
      ["alice,标题\n"] := by
  have hmap : mapInv
      [("item42", (⟨"alice", "item42", "", 9, false, 0⟩ : TenNoteState))] := by
    intro k st h
    unfold lookupState at h
    by_cases hk : ("item42" : String) = k
    · rw [if_pos hk] at h
      rw [← Option.some.inj h]
      refine ⟨⟨by decide, by decide, by decide⟩, ?_⟩
      show ',' ∉ (goTrim "alice").data
      decide
    · rw [if_neg hk] at h
      exact absurd h (by simp [lookupState])
  have htaskC : taskClean ⟨"alice", "item42", "tok", "标题"⟩ := by
    constructor
    · show ',' ∉ (goTrim "alice").data
      decide
    · show goTrim "item42" = "item42"
      decide
  have hinv : mgrInv
      ⟨"inst", false, ["alice"], [],
        [("item42", ⟨"alice", "item42", "", 9, false, 0⟩)],
        some ⟨"alice", "item42", "tok", "标题"⟩, 0, [], [], "a", "b", "c"⟩
      ⟨[("item42", ⟨"alice", "item42", "", 9, false, 0⟩)], []⟩ := by
    refine ⟨hmap, hmap, fun f => rfl, ?_, ?_, ?_⟩
    · intro a f ha hf hk
      exact absurd hk (List.not_mem_nil _)
    · intro t ht
      exact absurd ht (List.not_mem_nil _)
    · intro t ht
      rw [← Option.some.inj ht]
      exact htaskC
  have hlk : lookupState
      [("item42", (⟨"alice", "item42", "", 9, false, 0⟩ : TenNoteState))]
      ("item42" : String) =
      some (⟨"alice", "item42", "", 9, false, 0⟩ : TenNoteState) := by decide
  have hcc : ((⟨⟨false, true, true, true, true, 11⟩, [], true, []⟩ :
      ProcEnv)).stepEnv.ctxCancelled = false := rfl
  have h := ninth_to_tenth_interaction_completes hinv rfl htaskC (by decide)
    hlk rfl rfl hcc rfl rfl rfl rfl
  refine ⟨h.1, ?_⟩
  rw [h.2.2.1]
  decide
